import Mathlib

/-!
Verification development for the awake.fm artist-server content engine
(`artist-node/backend`): content graph, theme resolution, navigation tree
building, collection resolution / sorting / pagination, and the
collections controller's track-finding logic.

Python data is embedded shallowly: dicts become association lists that
keep insertion order (Python 3.7+ dict semantics), `Optional[str]`
becomes `Option String`, Python truthiness is made explicit, and the
two genuinely-partial loops (`_resolve_theme`'s while loop and the nav
builder's recursion) take an explicit fuel argument, returning `none`
exactly when the source loop would not have finished within that fuel.
-/

namespace AwakeFM

/-- Python string truthiness for an optional string: `None` and `""` are falsy. -/
def optStrTruthy : Option String → Bool
  | none => false
  | some s => !(s == "")

/-! ### Insertion-ordered dictionaries (Python `dict`) -/

/-- `d.get(k)`: first binding of `k` (bindings are kept unique by `dictInsert`). -/
def dictGet {β : Type} (d : List (String × β)) (k : String) : Option β :=
  (d.find? (fun kv => kv.1 == k)).map (fun kv => kv.2)

/-- `d.get(k, dflt)`. -/
def dictGetD {β : Type} (d : List (String × β)) (k : String) (dflt : β) : β :=
  (dictGet d k).getD dflt

/-- `d[k] = v`: replace in place if the key exists, else append (Python dict order). -/
def dictInsert {β : Type} (d : List (String × β)) (k : String) (v : β) :
    List (String × β) :=
  if (d.find? (fun kv => kv.1 == k)).isSome then
    d.map (fun kv => if kv.1 == k then (kv.1, v) else kv)
  else
    d ++ [(k, v)]

/-- `d.setdefault(k, []).append(v)` for the children index. -/
def dictAppendChild (d : List (String × List String)) (k v : String) :
    List (String × List String) :=
  if (d.find? (fun kv => kv.1 == k)).isSome then
    d.map (fun kv => if kv.1 == k then (kv.1, kv.2 ++ [v]) else kv)
  else
    d ++ [(k, [v])]

/-! ### Character-level string helpers

All string algorithms of the source are modelled on `String.data`
(lists of characters) with explicitly defined, structurally recursive
helpers, so that every definition evaluates by kernel reduction. -/

/-- Python `s.split("/")` on characters: `"" ↦ [""]`, `"a/" ↦ ["a",""]`, etc. -/
def splitCh : List Char → List (List Char)
  | [] => [[]]
  | c :: rest =>
    if c == '/' then [] :: splitCh rest
    else
      match splitCh rest with
      | s :: ss => (c :: s) :: ss
      | [] => [[c]]

/-- Python `"/".flatten(segs)` on characters. -/
def joinCh : List (List Char) → List Char
  | [] => []
  | [s] => s
  | s :: rest => s ++ '/' :: joinCh rest

/-- Python `s.strip(c)`: drop leading and trailing copies of `c`. -/
def stripChList (c : Char) (s : List Char) : List Char :=
  ((s.dropWhile (fun x => x == c)).reverse.dropWhile (fun x => x == c)).reverse

/-- Python `s.strip("/")` as a `String` operation. -/
def stripSlashes (s : String) : String :=
  String.mk (stripChList '/' s.data)

/-- `"/".flatten(path.split("/")[:-1])`: drop the last path segment. -/
def truncateLast (s : String) : String :=
  String.mk (joinCh ((splitCh s.data).dropLast))

/-- Number of slash-separated segments of a path (length of Python `split("/")`). -/
def segCount (s : String) : Nat :=
  (splitCh s.data).length

/-- Python `"/" in s`. -/
def hasSlash (s : String) : Bool :=
  s.data.contains '/'

/-- ASCII lowercase of a string (model of `str.lower()` on the data involved). -/
def lowerStr (s : String) : String :=
  String.mk (s.data.map Char.toLower)

/-- Lexicographic `≤` on character lists by code point (Python string comparison). -/
def lexLe : List Char → List Char → Bool
  | [], _ => true
  | _ :: _, [] => false
  | a :: as_, b :: bs =>
    if a.toNat < b.toNat then true
    else if a.toNat = b.toNat then lexLe as_ bs
    else false

/-! ### Python's stable `sorted`

`sorted` is a stable sort; any stable sort w.r.t. a total preorder
computes the same list, so we model it with stable insertion sort,
which is structurally recursive and kernel-reducible. -/

/-- Stable insertion: `a` goes before the first element `b` with `le a b`
(ties keep the earlier element first). -/
def insertS {α : Type} (le : α → α → Bool) (a : α) : List α → List α
  | [] => [a]
  | b :: bs => if le a b then a :: b :: bs else b :: insertS le a bs

/-- Model of Python `sorted(l, key=...)`: stable sort w.r.t. the total preorder `le`. -/
def pySorted {α : Type} (le : α → α → Bool) (l : List α) : List α :=
  l.foldr (insertS le) []

/-! ### Python `int(str)` parsing (controller query params) -/

/-- Digit run with optional single underscores between digits
(`int("1_0") == 10` in Python). Returns the parsed value. -/
def pyDigitsAux : Nat → List Char → Option Nat
  | acc, [] => some acc
  | acc, c :: rest =>
    if c.isDigit then pyDigitsAux (acc * 10 + (c.val.toNat - '0'.val.toNat)) rest
    else if c == '_' then
      match rest with
      | d :: rest2 =>
        if d.isDigit then pyDigitsAux (acc * 10 + (d.val.toNat - '0'.val.toNat)) rest2
        else none
      | [] => none
    else none

/-- Parse the body of a Python int literal: nonempty digits with underscores. -/
def pyDigits : List Char → Option Nat
  | [] => none
  | c :: rest =>
    if c.isDigit then pyDigitsAux (c.val.toNat - '0'.val.toNat) rest
    else none

/-- Model of Python `int(s)`: strip whitespace, optional sign, digit run;
`none` models `ValueError`. -/
def pyInt (s : String) : Option Int :=
  let cs := (s.data.dropWhile Char.isWhitespace).reverse.dropWhile Char.isWhitespace
  let cs := cs.reverse
  match cs with
  | '+' :: rest => (pyDigits rest).map (fun n => (n : Int))
  | '-' :: rest => (pyDigits rest).map (fun n => -(n : Int))
  | rest => (pyDigits rest).map (fun n => (n : Int))

/-! ### JSON-like values (`Dict[str, Any]` blobs: layouts and `deep_merge`)

Encoded first-order: an object is a chain of `objCons` cells ending in
`objNil`, so every function on it is structurally recursive. -/

inductive JVal : Type where
  | str (s : String)
  | int (n : Int)
  | bool (b : Bool)
  | null
  | objNil
  | objCons (key : String) (val : JVal) (rest : JVal)
deriving DecidableEq

/-- Is this value a Python dict? (`isinstance(v, dict)`). -/
def jIsObj : JVal → Bool
  | JVal.objNil => true
  | JVal.objCons _ _ _ => true
  | _ => false

/-- Dict lookup on an object chain. -/
def jGet : JVal → String → Option JVal
  | JVal.objCons k v rest, key => if k == key then some v else jGet rest key
  | _, _ => none

/-- Dict assignment `d[k] = v`: replace in place, else append at the end. -/
def jInsert : JVal → String → JVal → JVal
  | JVal.objCons k v rest, key, newV =>
    if k == key then JVal.objCons k newV rest
    else JVal.objCons k v (jInsert rest key newV)
  | JVal.objNil, key, newV => JVal.objCons key newV JVal.objNil
  | other, _, _ => other

/-- `defaults._deep_merge(a, b)`: merge dict `b` into dict `a` recursively;
values that are both dicts merge recursively, otherwise `b`'s value wins. -/
def deep_merge (a : JVal) : JVal → JVal
  | JVal.objNil => a
  | JVal.objCons k v rest =>
    let newV :=
      match jGet a k with
      | some o => if jIsObj o && jIsObj v then deep_merge o v else v
      | none => v
    deep_merge (jInsert a k newV) rest
  | other => other

/-- `DEFAULT_COLLECTION_LAYOUTS["grid"]`. -/
def gridLayoutDefault : JVal :=
  JVal.objCons "mode" (JVal.str "grid")
  (JVal.objCons "columns"
    (JVal.objCons "xl" (JVal.int 5) (JVal.objCons "lg" (JVal.int 4)
      (JVal.objCons "md" (JVal.int 3) (JVal.objCons "sm" (JVal.int 2)
        (JVal.objCons "xs" (JVal.int 1) JVal.objNil)))))
  (JVal.objCons "gap"
    (JVal.objCons "row" (JVal.str "1.5rem")
      (JVal.objCons "column" (JVal.str "1.5rem") JVal.objNil))
  (JVal.objCons "align"
    (JVal.objCons "horizontal" (JVal.str "stretch")
      (JVal.objCons "vertical" (JVal.str "start") JVal.objNil))
    JVal.objNil)))

/-- `DEFAULT_COLLECTION_LAYOUTS["list"]`. -/
def listLayoutDefault : JVal :=
  JVal.objCons "mode" (JVal.str "list")
  (JVal.objCons "dense" (JVal.bool false)
  (JVal.objCons "show_dividers" (JVal.bool true)
  (JVal.objCons "show_avatar" (JVal.bool true)
  (JVal.objCons "show_meta" (JVal.bool true)
  (JVal.objCons "align"
    (JVal.objCons "vertical" (JVal.str "center") JVal.objNil)
    JVal.objNil)))))

/-- `DEFAULT_COLLECTION_LAYOUTS["carousel"]`. -/
def carouselLayoutDefault : JVal :=
  JVal.objCons "mode" (JVal.str "carousel")
  (JVal.objCons "slides_per_view"
    (JVal.objCons "xl" (JVal.int 5) (JVal.objCons "lg" (JVal.int 4)
      (JVal.objCons "md" (JVal.int 3) (JVal.objCons "sm" (JVal.int 2)
        (JVal.objCons "xs" (JVal.int 1) JVal.objNil)))))
  (JVal.objCons "spacing" (JVal.str "1rem")
  (JVal.objCons "loop" (JVal.bool true)
  (JVal.objCons "autoplay"
    (JVal.objCons "enabled" (JVal.bool true)
      (JVal.objCons "interval_ms" (JVal.int 8000)
        (JVal.objCons "pause_on_hover" (JVal.bool true) JVal.objNil)))
  (JVal.objCons "controls"
    (JVal.objCons "arrows" (JVal.bool true)
      (JVal.objCons "dots" (JVal.bool true) JVal.objNil))
  (JVal.objCons "snap_align" (JVal.str "center")
  (JVal.objCons "max_width" (JVal.str "100%") JVal.objNil)))))))

/-- `DEFAULT_COLLECTION_LAYOUTS.get(mode, DEFAULT_COLLECTION_LAYOUTS["grid"])`. -/
def defaultLayoutFor (mode : String) : JVal :=
  if mode == "grid" then gridLayoutDefault
  else if mode == "list" then listLayoutDefault
  else if mode == "carousel" then carouselLayoutDefault
  else gridLayoutDefault

/-! ### Data model (`backend/models/content_graph.py`) -/

structure NodePreview : Type where
  title : String
  subtitle : Option String
  image : Option String
  badge : Option String
  blurb : Option String
deriving DecidableEq

/-- `NodeMeta` of `content_graph.py`.

The final field is not present in this snapshot's `NodeMeta` dataclass.
Modelled from the spec: `_apply_sort` (present in the snapshot) reads
`parent_node.meta.collection_order`, and the spec's data model (§3)
lists "`collectionOrder` (optional explicit ordering of child slugs)";
the field declaration itself is missing from the snapshot's sources. -/
structure NodeMeta : Type where
  path : String
  parent_path : Option String
  layout : String
  slug : Option String
  display_name : Option String
  theme : Option String
  effects : List String
  extra : JVal
  collection_order : Option (List String)
deriving DecidableEq

/-- Content blocks of `content_graph.py` (the graph's own block union).
Opaque `Dict[str, str]`-typed fields (`cta`, `sigil`, `visualizer`)
are carried as uninterpreted `JVal` payloads. -/
inductive Block : Type where
  | hero (heading : String) (subheading body : Option String) (cta sigil : Option JVal)
  | sectionB (id label : Option String) (blocks : List Block)
  | markdown (body : String)
  | subpage (ref : String) (label : Option String) (nav : Bool)
  | collection (source : String) (path : Option String)
  | audio_player (src : String) (title artist artwork : Option String)
      (visualizer : Option JVal)

structure ContentNode : Type where
  meta : NodeMeta
  title : Option String
  tagline : Option String
  preview : Option NodePreview
  content : List Block

structure ContentGraph : Type where
  root_content_path : String
  root_theme : Option String
  nodes : List (String × ContentNode)
  children_by_parent : List (String × List String)

/-- `ContentGraph.get_node`. -/
def get_node (g : ContentGraph) (path : String) : Option ContentNode :=
  dictGet g.nodes path

/-- `ContentGraph.register_node`: insert into the node map and append to the
parent index when `parent_path` is truthy. -/
def register_node (g : ContentGraph) (node : ContentNode) : ContentGraph :=
  let path := node.meta.path
  let g1 : ContentGraph := { g with nodes := dictInsert g.nodes path node }
  match node.meta.parent_path with
  | some parent =>
    if parent == "" then g1
    else { g1 with children_by_parent := dictAppendChild g1.children_by_parent parent path }
  | none => g1

/-- A graph built by registering `L` in order, starting from an empty store. -/
def buildGraph (rcp : String) (rt : Option String) (L : List ContentNode) : ContentGraph :=
  L.foldl register_node
    { root_content_path := rcp, root_theme := rt, nodes := [], children_by_parent := [] }

/-! ### Theme resolution (`ContentGraph._resolve_theme`) -/

/-- Does this node have a truthy `meta.theme` (`node and node.meta.theme`)? -/
def themeTruthy (node : ContentNode) : Bool :=
  optStrTruthy node.meta.theme

/-- One iteration of `_resolve_theme`'s while loop, fuelled.  Returns
`none` when the loop would not have finished within `fuel` iterations,
and `some r` with the loop's result `r` otherwise. -/
def resolveThemeAux (g : ContentGraph) : Nat → String → Option (Option String)
  | 0, _ => none
  | fuel + 1, current =>
    if current == "" then some g.root_theme
    else
      match get_node g current with
      | some node =>
        if themeTruthy node then some node.meta.theme
        else if optStrTruthy node.meta.parent_path then
          resolveThemeAux g fuel (node.meta.parent_path.getD "")
        else if hasSlash current then resolveThemeAux g fuel (truncateLast current)
        else some g.root_theme
      | none =>
        if hasSlash current then resolveThemeAux g fuel (truncateLast current)
        else some g.root_theme

/-- The "advance to the parent" step of the walk, independent of themes:
prefer the node's truthy `parent_path`, else truncate the path string,
else stop (`none`). -/
def themeStepNext (g : ContentGraph) (current : String) : Option String :=
  match get_node g current with
  | some node =>
    if optStrTruthy node.meta.parent_path then some (node.meta.parent_path.getD "")
    else if hasSlash current then some (truncateLast current)
    else none
  | none =>
    if hasSlash current then some (truncateLast current)
    else none

/-- The sequence of paths the walk visits (fuelled, ignoring themes). -/
def themeWalk (g : ContentGraph) : Nat → String → List String
  | 0, _ => []
  | fuel + 1, current =>
    if current == "" then []
    else
      current ::
        (match themeStepNext g current with
        | some next => themeWalk g fuel next
        | none => [])

/-- Is there a truthy theme at this path? -/
def themeTruthyAt (g : ContentGraph) (p : String) : Bool :=
  match get_node g p with
  | some node => themeTruthy node
  | none => false

/-- The stored theme at a path. -/
def themeAt (g : ContentGraph) (p : String) : Option String :=
  (get_node g p).bind (fun node => node.meta.theme)

/-- The theme selected by a walk: the first visited path with a truthy
theme, else the graph's root theme. -/
def themeFromWalk (g : ContentGraph) (walk : List String) : Option String :=
  match walk.find? (fun q => themeTruthyAt g q) with
  | some q => themeAt g q
  | none => g.root_theme

/-! ### Page payloads (`ContentNode.to_dict` / `ContentGraph.to_page_payload`) -/

/-- Item payloads rendered by `CollectionResolver._item_payload`. -/
inductive ItemPayload : Type where
  | mediaFile (filename path title extension : String)
  | nodeItem (path : String) (layout : String) (slug display_name : Option String)
      (preview : Option NodePreview)
  | pathOnly (path : String)
deriving DecidableEq

/-- Paging metadata attached to collection payloads. -/
structure PagingMeta : Type where
  enabled : Bool
  mode : String
  page : Nat
  page_size : Nat
  total_items : Nat
  total_pages : Nat
  has_more : Bool
deriving DecidableEq

/-- Serialized blocks as they appear in payloads.  The first six
constructors are the plain `asdict` serializations of the graph's block
types; `collectionHydrated` is the shape an expanded collection block
takes (items plus paging metadata attached). -/
inductive BlockOut : Type where
  | hero (heading : String) (subheading body : Option String) (cta sigil : Option JVal)
  | sectionB (id label : Option String) (blocks : List BlockOut)
  | markdown (body : String)
  | subpage (ref : String) (label : Option String) (nav : Bool)
  | collectionRaw (source : String) (path : Option String)
  | audio (src : String) (title artist artwork : Option String) (visualizer : Option JVal)
  | collectionHydrated (source : String) (path : Option String) (layout : JVal)
      (items : List ItemPayload) (paging : PagingMeta)

mutual
/-- `dataclasses.asdict` of one block, recursing into sections. -/
def serializeBlock : Block → BlockOut
  | Block.hero h s b cta sigil => BlockOut.hero h s b cta sigil
  | Block.sectionB i l bs => BlockOut.sectionB i l (serializeBlocks bs)
  | Block.markdown b => BlockOut.markdown b
  | Block.subpage r l n => BlockOut.subpage r l n
  | Block.collection s p => BlockOut.collectionRaw s p
  | Block.audio_player src t a aw v => BlockOut.audio src t a aw v

def serializeBlocks : List Block → List BlockOut
  | [] => []
  | b :: bs => serializeBlock b :: serializeBlocks bs
end

/-- The dict returned by `/api/page` for one node. -/
structure PagePayload : Type where
  path : String
  meta_layout : String
  meta_slug : Option String
  meta_display_name : Option String
  meta_theme : Option String
  meta_effects : List String
  meta_extra : JVal
  meta_effective_theme : Option String
  title : Option String
  tagline : Option String
  preview : Option NodePreview
  content : List BlockOut

/-- `ContentGraph.to_page_payload`, fuelled through `_resolve_theme`:
`none` means the theme walk did not finish within `fuel`; `some none`
is the source's `None` (unknown path); `some (some payload)` is the
payload (the node's `to_dict` plus `meta.effective_theme`). -/
def to_page_payload (g : ContentGraph) (fuel : Nat) (path : String) :
    Option (Option PagePayload) :=
  match get_node g path with
  | none => some none
  | some node =>
    match resolveThemeAux g fuel path with
    | none => none
    | some eff =>
      some (some
        { path := node.meta.path
          meta_layout := node.meta.layout
          meta_slug := node.meta.slug
          meta_display_name := node.meta.display_name
          meta_theme := node.meta.theme
          meta_effects := node.meta.effects
          meta_extra := node.meta.extra
          meta_effective_theme := eff
          title := node.title
          tagline := node.tagline
          preview := node.preview
          content := serializeBlocks node.content })

/-! ### Collection resolution (`backend/models/collection_resolver.py`) -/

/-- External effects of the resolver, passed explicitly:
`shuffle` models `random.shuffle` (an arbitrary but fixed reordering),
and `listMedia path pattern current_node_path` models
`_resolve_media_folder_source`'s filesystem directory scan (the only
I/O in the resolver), returning file paths relative to the content
root.  Every theorem below holds for every choice of `Env`. -/
structure Env : Type where
  shuffle : List String → List String
  listMedia : String → String → String → List String

/-- Last path component (`pathlib.PurePath.name` for the slash-separated
file paths produced by the media scan). -/
def pathNameCh (s : String) : List Char :=
  (splitCh s.data).getLastD []

/-- Index of the last `'.'` in a name (`str.rfind('.')`), if any. -/
def lastDotIdx (name : List Char) : Option Nat :=
  ((name.enum.filter (fun p => p.2 == '.')).getLast?).map (fun p => p.1)

/-- `pathlib.PurePath.suffix`: the last dot-suffix of the name, but only
when the dot is neither the first nor the last character. -/
def pathSuffix (s : String) : String :=
  let name := pathNameCh s
  match lastDotIdx name with
  | some i => if 0 < i && i < name.length - 1 then String.mk (name.drop i) else ""
  | none => ""

/-- `pathlib.PurePath.stem`: the name without `pathSuffix`. -/
def pathStem (s : String) : String :=
  let name := pathNameCh s
  match lastDotIdx name with
  | some i => if 0 < i && i < name.length - 1 then String.mk (name.take i) else String.mk name
  | none => String.mk name

/-- `pathlib.PurePath.name` as a `String`. -/
def pathName (s : String) : String :=
  String.mk (pathNameCh s)

/-- `CollectionResolver._sort_title`: preview title, else node title,
else the raw path (each via Python truthiness). -/
def sort_title (g : ContentGraph) (node_path : String) : String :=
  match get_node g node_path with
  | none => node_path
  | some node =>
    let fromTitle :=
      match node.title with
      | some t => if t == "" then node_path else t
      | none => node_path
    match node.preview with
    | some pv => if pv.title == "" then fromTitle else pv.title
    | none => fromTitle

/-- The case-insensitive sort key used by the name sorts. -/
def titleKey (g : ContentGraph) (p : String) : List Char :=
  (lowerStr (sort_title g p)).data

/-- Index of a slug in a `collection_order` list (last occurrence wins,
as in the Python dict comprehension `{slug: idx for idx, slug in ...}`). -/
def orderIndex (order : List String) (slug : String) : Option Nat :=
  ((order.enum.filter (fun p => p.2 == slug)).getLast?).map (fun p => p.1)

/-- The sort key of `_apply_sort`'s `collection_order` branch:
`(0, listIndex, "")` for listed slugs, `(1, 999999, lowercaseTitle)` otherwise. -/
def orderKey (g : ContentGraph) (order : List String) (path : String) :
    Nat × Nat × List Char :=
  let slug := String.mk ((splitCh path.data).getLastD [])
  match orderIndex order slug with
  | some idx => (0, idx, [])
  | none => (1, 999999, titleKey g path)

/-- Lexicographic `≤` on the `collection_order` sort keys. -/
def orderKeyLe (a b : Nat × Nat × List Char) : Bool :=
  if a.1 < b.1 then true
  else if a.1 == b.1 then
    if a.2.1 < b.2.1 then true
    else if a.2.1 == b.2.1 then lexLe a.2.2 b.2.2
    else false
  else false

/-- `CollectionResolver._apply_sort`: explicit sort token first
(`random` / `name_asc` / `name_desc`), else the parent's
`collection_order`, else `name_asc`. -/
def apply_sort (env : Env) (g : ContentGraph) (paths : List String)
    (sort : Option String) (parent_path : Option String) : List String :=
  let nameAsc := pySorted (fun a b => lexLe (titleKey g a) (titleKey g b)) paths
  if sort == some "random" then env.shuffle paths
  else if sort == some "name_asc" then nameAsc
  else if sort == some "name_desc" then
    pySorted (fun a b => lexLe (titleKey g b) (titleKey g a)) paths
  else
    match parent_path with
    | some pp =>
      if pp == "" then nameAsc
      else
        match get_node g pp with
        | some parent =>
          match parent.meta.collection_order with
          | some order =>
            if order == ([] : List String) then nameAsc
            else
              pySorted (fun a b => orderKeyLe (orderKey g order a) (orderKey g order b)) paths
          | none => nameAsc
        | none => nameAsc
    | none => nameAsc

/-- The character-level core of the fallback prefix scan: does `q` start
with the prefix, with a slash-free remainder? -/
def dcGo : List Char → List Char → Bool
  | [], rest => !(rest.contains '/')
  | _ :: _, [] => false
  | p :: ps, c :: cs => p == c && dcGo ps cs

/-- `q.startswith(base + "/")` and the remainder `q[len(base)+1:]`
contains no further `/` (exactly one additional path segment). -/
def isDirectChildOf (base q : String) : Bool :=
  dcGo (base.data ++ ['/']) q.data

/-- The fallback linear scan over all registered paths. -/
def prefixScan (g : ContentGraph) (base : String) : List String :=
  (g.nodes.map (fun kv => kv.1)).filter (fun q => isDirectChildOf base q)

/-- `CollectionResolver._resolve_folder_source`. -/
def resolve_folder_source (g : ContentGraph) (path : Option String) : List String :=
  match path with
  | none => []
  | some p =>
    if p == "" then []
    else
      let base := stripSlashes p
      match dictGet g.children_by_parent base with
      | some cs => cs
      | none => prefixScan g base

/-- `CollectionResolver._resolve_media_folder_source`: empty path gives
`[]`; the pattern defaults to `"*.mp3"`; the directory resolution and
glob itself is the filesystem boundary, modelled by `env.listMedia`. -/
def resolve_media_folder_source (env : Env) (path pattern : Option String)
    (current_node_path : String) : List String :=
  match path with
  | none => []
  | some p =>
    if p == "" then []
    else
      let pat :=
        match pattern with
        | some q => if q == "" then "*.mp3" else q
        | none => "*.mp3"
      env.listMedia p pat current_node_path

/-- `CollectionResolver._resolve_candidates`: dispatch on the block's
source type; unknown sources resolve to no candidates. -/
def resolve_candidates (env : Env) (g : ContentGraph) (source : String)
    (path : Option String) (pattern : Option String) (current_node_path : String) :
    List String :=
  if source == "folder" then resolve_folder_source g path
  else if source == "media_folder" then
    resolve_media_folder_source env path pattern current_node_path
  else []

/-- `CollectionResolver._item_payload`. -/
def item_payload (g : ContentGraph) (source_type : String) (item_id : String) :
    ItemPayload :=
  if source_type == "media_folder" then
    ItemPayload.mediaFile (pathName item_id) item_id (pathStem item_id) (pathSuffix item_id)
  else
    match get_node g item_id with
    | none => ItemPayload.pathOnly item_id
    | some node =>
      ItemPayload.nodeItem node.meta.path node.meta.layout node.meta.slug
        node.meta.display_name node.preview

/-- `page = max(1, int(page or 1))`. -/
def normPage (page : Int) : Nat :=
  (max 1 (if page == 0 then 1 else page)).toNat

/-- `page_size = max(1, int(page_size or 24))`. -/
def normPageSize (page_size : Int) : Nat :=
  (max 1 (if page_size == 0 then 24 else page_size)).toNat

/-- The sorted-and-limited candidate list of `resolve_collection`
(candidate resolution via the normalized source, then `_apply_sort`,
then the positive-limit truncation). -/
def collectionCandidates (env : Env) (g : ContentGraph) (source path : String)
    (sort : Option String) (lim : Option Int) (pattern : Option String)
    (current_node_path : String) : List String :=
  let src := if source == "" then "folder" else source
  let c1 := resolve_candidates env g src (some path) pattern current_node_path
  let c2 := apply_sort env g c1 sort (some path)
  match lim with
  | some l => if 0 < l then c2.take l.toNat else c2
  | none => c2

/-- The payload returned by `/api/collection`. -/
structure CollectionPayload : Type where
  source : String
  path : String
  card : Option String
  sort : Option String
  layout : JVal
  items : List ItemPayload
  paging : PagingMeta
deriving DecidableEq

/-- `CollectionResolver.resolve_collection`: normalize paging input,
merge layout defaults, resolve + sort + limit candidates, slice the
requested page and attach paging metadata. -/
def resolve_collection (env : Env) (g : ContentGraph) (source path : String)
    (page page_size : Int) (sort : Option String) (lim : Option Int)
    (layout : Option JVal) (card : Option String) (pattern : Option String)
    (current_node_path : String) : CollectionPayload :=
  let pageN := normPage page
  let sizeN := normPageSize page_size
  let layout_dict := match layout with | some l => l | none => JVal.objNil
  let mode :=
    match jGet layout_dict "mode" with
    | some (JVal.str m) => if m == "" then "grid" else m
    | _ => "grid"
  let merged_layout := deep_merge (defaultLayoutFor mode) layout_dict
  let candidates := collectionCandidates env g source path sort lim pattern current_node_path
  let total_items := candidates.length
  let total_pages := (total_items + sizeN - 1) / sizeN
  let start := (pageN - 1) * sizeN
  let page_paths := (candidates.drop start).take sizeN
  { source := if source == "" then "folder" else source
    path := path
    card := card
    sort := sort
    layout := merged_layout
    items := page_paths.map (fun p => item_payload g source p)
    paging :=
      { enabled := true
        mode := "load_more"
        page := pageN
        page_size := sizeN
        total_items := total_items
        total_pages := total_pages
        has_more := decide (start + sizeN < total_items) } }

/-! ### Collection-block hydration and the hydrated page assembler -/

/-- `CollectionResolver.hydrate_collection_block` applied to a collection
block of the graph's block union, whose only fields are `source` and
`path` — so `layout`, `sort`, `limit` and `paging` are all `None`:
layout defaults merge over `{}`, paging is disabled, `page_size` falls
back to `total_items`, and all candidates are returned as page 1. -/
def hydrate_collection_block (env : Env) (g : ContentGraph) (source : String)
    (path : Option String) (current_node_path : String) : BlockOut :=
  let c1 := resolve_candidates env g source path none current_node_path
  let candidates := apply_sort env g c1 none path
  let total_items := candidates.length
  let page_size := total_items
  let eend := page_size
  let page_paths := if page_size == 0 then [] else candidates.take eend
  let items := page_paths.map (fun p => item_payload g source p)
  let total_pages := if 0 < page_size then (total_items + page_size - 1) / page_size else 1
  BlockOut.collectionHydrated source path (deep_merge gridLayoutDefault JVal.objNil) items
    { enabled := false
      mode := "load_more"
      page := 1
      page_size := page_size
      total_items := total_items
      total_pages := total_pages
      has_more := if page_size == 0 then false else decide (eend < total_items) }

mutual
/-- Modelled from the spec: §4.6's recursive block hydration ("section
blocks are walked to hydrate their children; collection blocks are
expanded via 4.5; all other block types pass through unchanged").  The
snapshot's `to_page_payload` performs no such walk (it serializes the
blocks as-is), and no caller of `hydrate_collection_block` is present
in the snapshot; this walk is the spec's description of the missing
assembly step. -/
def hydrateBlock (env : Env) (g : ContentGraph) (cur : String) : Block → BlockOut
  | Block.sectionB i l bs => BlockOut.sectionB i l (hydrateBlocks env g cur bs)
  | Block.collection s p => hydrate_collection_block env g s p cur
  | Block.hero h s b cta sigil => BlockOut.hero h s b cta sigil
  | Block.markdown b => BlockOut.markdown b
  | Block.subpage r l n => BlockOut.subpage r l n
  | Block.audio_player src t a aw v => BlockOut.audio src t a aw v

/-- Modelled from the spec: pointwise hydration of a block list (see
`hydrateBlock`). -/
def hydrateBlocks (env : Env) (g : ContentGraph) (cur : String) :
    List Block → List BlockOut
  | [] => []
  | b :: bs => hydrateBlock env g cur b :: hydrateBlocks env g cur bs
end

/-- Modelled from the spec: the Page Payload Assembler of §4.6 — the
node's own fields, its resolved effective theme, and its content blocks
recursively hydrated.  This is what claim C2 asserts `to_page_payload`
returns; the snapshot's `to_page_payload` differs in leaving `content`
unhydrated. -/
def to_page_payload_hydrated (env : Env) (g : ContentGraph) (fuel : Nat) (path : String) :
    Option (Option PagePayload) :=
  match get_node g path with
  | none => some none
  | some node =>
    match resolveThemeAux g fuel path with
    | none => none
    | some eff =>
      some (some
        { path := node.meta.path
          meta_layout := node.meta.layout
          meta_slug := node.meta.slug
          meta_display_name := node.meta.display_name
          meta_theme := node.meta.theme
          meta_effects := node.meta.effects
          meta_extra := node.meta.extra
          meta_effective_theme := eff
          title := node.title
          tagline := node.tagline
          preview := node.preview
          content := hydrateBlocks env g path node.content })

/-! ### Navigation tree building (`backend/graph/graph_ops.py`) -/

structure NavItem : Type where
  label : String
  href : String
  children : List NavItem

mutual
/-- `GraphOps._iter_nav_subpages`: the `(ref, label)` pairs of
nav-flagged subpage blocks, in declaration order, descending into
section blocks. -/
def navSubpages : List Block → List (String × Option String)
  | [] => []
  | b :: rest => navSubpagesOne b ++ navSubpages rest

/-- One block's contribution to `navSubpages`. -/
def navSubpagesOne : Block → List (String × Option String)
  | Block.subpage r l n => if n then [(r, l)] else []
  | Block.sectionB _ _ bs => navSubpages bs
  | _ => []
end

/-- `GraphOps._href_for_path`. -/
def href_for_path (g : ContentGraph) (path : String) : String :=
  if path == g.root_content_path then "/" else "/" ++ path

/-- The label fallback chain (`label or display_name or title or slug or path`). -/
def firstTruthy : List (Option String) → String → String
  | [], dflt => dflt
  | none :: rest, dflt => firstTruthy rest dflt
  | some s :: rest, dflt => if s == "" then firstTruthy rest dflt else s

/-- The loop body of `_build_nav_tree_for_node`: walk the nav subpages,
threading the (mutable, shared) visited set through every recursive
call; dangling refs and empty refs are skipped. -/
def navChildrenGo (g : ContentGraph)
    (rec_ : ContentNode → List String → Option (List NavItem × List String)) :
    List (String × Option String) → List String → Option (List NavItem × List String)
  | [], visited => some ([], visited)
  | (ref, label) :: rest, visited =>
    if ref == "" then navChildrenGo g rec_ rest visited
    else
      match get_node g ref with
      | none => navChildrenGo g rec_ rest visited
      | some target =>
        match rec_ target visited with
        | none => none
        | some (kids, visited2) =>
          match navChildrenGo g rec_ rest visited2 with
          | none => none
          | some (items, visited3) =>
            some
              ({ label := firstTruthy
                    [label, target.meta.display_name, target.title, target.meta.slug]
                    target.meta.path
                 href := href_for_path g target.meta.path
                 children := kids } :: items,
               visited3)

/-- `GraphOps._build_nav_tree_for_node`, fuelled on recursion depth:
`none` means the recursion went deeper than `fuel` (the source has no
such bound; the termination theorem shows a sufficient fuel exists).
An already-visited path yields an empty child list. -/
def buildNavTreeAux (g : ContentGraph) :
    Nat → ContentNode → List String → Option (List NavItem × List String)
  | 0, _, _ => none
  | fuel + 1, node, visited =>
    if visited.contains node.meta.path then some ([], visited)
    else
      navChildrenGo g (buildNavTreeAux g fuel) (navSubpages node.content)
        (visited ++ [node.meta.path])

/-- `GraphOps._resolve_ref`: `"."`/`"./"` map to the root content path;
anything else must name a registered node. -/
def resolve_ref (g : ContentGraph) (ref : String) : Option String :=
  let path := if ref == "." || ref == "./" then g.root_content_path else ref
  match get_node g path with
  | none => none
  | some _ => some path

/-- `GraphOps._nav_item_from_entry` (fuelled through the nav tree
builder): resolve the entry's ref, compute label and href, and expand
`auto_children == "from_subpages"` with a fresh visited set. -/
def nav_item_from_entry (g : ContentGraph) (fuel : Nat) (ref : Option String)
    (label : Option String) (auto_children : Option String) :
    Option (Option NavItem) :=
  match ref with
  | none => some none
  | some r =>
    match resolve_ref g r with
    | none => some none
    | some path =>
      if path == "" then some none
      else
        match get_node g path with
        | none => some none
        | some node =>
          let eff := firstTruthy
            [label, node.meta.display_name, node.title, node.meta.slug] node.meta.path
          let href := href_for_path g node.meta.path
          if auto_children == some "from_subpages" then
            match buildNavTreeAux g fuel node [] with
            | none => none
            | some (children, _) =>
              some (some { label := eff, href := href, children := children })
          else some (some { label := eff, href := href, children := [] })

/-! ### Controller-level input handling (`collections_controller.py`) -/

/-- `int(request.args.get("page", "1"))` with `ValueError ↦ 1`. -/
def effectivePage (q : Option String) : Int :=
  match pyInt (q.getD "1") with
  | some n => n
  | none => 1

/-- `int(request.args.get("page_size", "24"))` with `ValueError ↦ 24`. -/
def effectivePageSize (q : Option String) : Int :=
  match pyInt (q.getD "24") with
  | some n => n
  | none => 24

/-- Left-to-right, non-overlapping replacement of `pat` by the empty
string (`str.replace(pat, "")`), fuelled by the input length (each step
consumes at least one character, so the fuel never runs out). -/
def replaceFuel (pat : List Char) : Nat → List Char → List Char
  | _, [] => []
  | 0, s => s
  | f + 1, c :: cs =>
    if !pat.isEmpty && pat.isPrefixOf (c :: cs) then
      replaceFuel pat f ((c :: cs).drop pat.length)
    else c :: replaceFuel pat f cs

/-- `s.replace(pat, "")`. -/
def replaceAllCh (pat s : List Char) : List Char :=
  replaceFuel pat s.length s

/-- The character class `[a-zA-Z0-9-_]` kept by the slug regex. -/
def keepChar (c : Char) : Bool :=
  c.isAlpha || c.isDigit || c == '-' || c == '_'

/-- `re.sub(r'-+', '-', ...)`: collapse runs of dashes. -/
def collapseDashes : List Char → List Char
  | [] => []
  | [c] => [c]
  | c1 :: c2 :: rest =>
    if c1 == '-' && c2 == '-' then collapseDashes (c2 :: rest)
    else c1 :: collapseDashes (c2 :: rest)

/-- The URL-safe id the find-track controller derives from a filename:
remove every occurrence of the extension substring, replace each
character outside `[a-zA-Z0-9-_]` with a dash, collapse dash runs, and
strip leading/trailing dashes.  No lowercasing is performed. -/
def trackSlug (filename extension : String) : String :=
  let noExt := replaceAllCh extension.data filename.data
  let dashed := noExt.map (fun c => if keepChar c then c else '-')
  String.mk (stripChList '-' (collapseDashes dashed))

/-- The JSON body returned by `/api/collection/find-track`. -/
structure FindResult : Type where
  found : Bool
  page : Option Nat
  index : Option Nat
  total_items : Nat
  filename : Option String
  item_id : Option String
deriving DecidableEq

/-- The search loop of `FindTrackController.get` over the full item
list: only `media_file` items are matched (all items advance the
index); the first exact slug match wins and reports page
`index // page_size + 1`. -/
def findTrackGo (track_id : String) (page_size : Nat) (total : Nat) :
    Nat → List ItemPayload → FindResult
  | _, [] =>
    { found := false, page := none, index := none, total_items := total
      filename := none, item_id := none }
  | idx, item :: rest =>
    match item with
    | ItemPayload.mediaFile filename _ _ ext =>
      let item_id := trackSlug filename ext
      if item_id == track_id then
        { found := true, page := some (idx / page_size + 1), index := some idx
          total_items := total, filename := some filename, item_id := some item_id }
      else findTrackGo track_id page_size total (idx + 1) rest
    | _ => findTrackGo track_id page_size total (idx + 1) rest

/-- `FindTrackController.get`'s matching step, given the unpaginated
item list of the collection. -/
def find_track (items : List ItemPayload) (track_id : String) (page_size : Nat) :
    FindResult :=
  findTrackGo track_id page_size items.length 0 items

/-! ## Theorems -/

/-! ### C7: page / page_size input coercion -/

theorem normPage_pos (n : Int) : 1 ≤ normPage n := by
  unfold normPage
  have h1 := Int.le_max_left 1 (if n == 0 then 1 else n)
  omega

theorem normPageSize_pos (n : Int) : 1 ≤ normPageSize n := by
  unfold normPageSize
  have h1 := Int.le_max_left 1 (if n == 0 then 24 else n)
  omega

/-- C7 (amended): `resolve_collection` never fails hard on page or
page_size input: missing or non-numeric `page` yields effective page 1;
missing or non-numeric `page_size` yields effective page size 24;
non-positive `page` values and negative `page_size` values are coerced
up to 1, while a zero `page_size` falls back to the default 24; and in
all cases the resolver returns a normal payload whose paging carries
these positive effective values. -/
theorem C7_input_coercion (pq sq : Option String) (n : Int)
    (env : Env) (g : ContentGraph) (source path : String) (sort : Option String)
    (lim : Option Int) (layout : Option JVal) (card pattern : Option String)
    (cur : String) :
    (pq = none → effectivePage pq = 1) ∧
    (∀ s, pq = some s → pyInt s = none → effectivePage pq = 1) ∧
    (sq = none → effectivePageSize sq = 24) ∧
    (∀ s, sq = some s → pyInt s = none → effectivePageSize sq = 24) ∧
    (n ≤ 0 → normPage n = 1) ∧
    (n < 0 → normPageSize n = 1) ∧
    normPageSize 0 = 24 ∧
    (resolve_collection env g source path (effectivePage pq) (effectivePageSize sq)
        sort lim layout card pattern cur).paging.page = normPage (effectivePage pq) ∧
    (resolve_collection env g source path (effectivePage pq) (effectivePageSize sq)
        sort lim layout card pattern cur).paging.page_size
      = normPageSize (effectivePageSize sq) ∧
    1 ≤ normPage (effectivePage pq) ∧
    1 ≤ normPageSize (effectivePageSize sq) := by
  refine ⟨?_, ?_, ?_, ?_, ?_, ?_, by decide, rfl, rfl, normPage_pos _, normPageSize_pos _⟩
  · rintro rfl; rfl
  · rintro s rfl h; simp [effectivePage, h]
  · rintro rfl; rfl
  · rintro s rfl h; simp [effectivePageSize, h]
  · intro h; unfold normPage; split
    · simp
    · have h1 := Int.le_max_left 1 n
      rcases max_choice 1 n with h2 | h2 <;> omega
  · intro h; unfold normPageSize; split
    · next h0 => simp only [beq_iff_eq] at h0; omega
    · have h1 := Int.le_max_left 1 n
      rcases max_choice 1 n with h2 | h2 <;> omega

/-- Witness for C7: the theorem applied at concrete inputs, with each
hypothesis discharged there. -/
theorem C7_input_coercion_witness :
    effectivePage none = 1 ∧ effectivePage (some "abc") = 1 ∧
    effectivePageSize none = 24 ∧ effectivePageSize (some "x7") = 24 ∧
    normPage (-5) = 1 ∧ normPageSize (-3) = 1 ∧ normPageSize 0 = 24 := by
  have h := C7_input_coercion (some "abc") (some "x7") (-5)
    { shuffle := fun l => l, listMedia := fun _ _ _ => [] }
    { root_content_path := "server", root_theme := none, nodes := [],
      children_by_parent := [] }
    "folder" "artists" none none none none none "server"
  have h2 := C7_input_coercion none none (-3)
    { shuffle := fun l => l, listMedia := fun _ _ _ => [] }
    { root_content_path := "server", root_theme := none, nodes := [],
      children_by_parent := [] }
    "folder" "artists" none none none none none "server"
  refine ⟨h2.1 rfl, h.2.1 "abc" rfl (by decide), h2.2.2.1 rfl,
    h.2.2.2.1 "x7" rfl (by decide), h.2.2.2.2.1 (by decide),
    h2.2.2.2.2.2.1 (by decide), h.2.2.2.2.2.2.1⟩

/-- C7 counterexample: the claim says non-positive numeric values are
coerced up to 1, but a `page_size` of `0` is falsy in
`int(page_size or 24)` and therefore falls back to 24, not 1. -/
theorem C7_counterexample :
    effectivePageSize (some "0") = 0 ∧ normPageSize 0 = 24 ∧ ¬ normPageSize 0 = 1 := by
  refine ⟨by decide, by decide, by decide⟩

/-! ### C8: find-track -/

/-- The controller's match test: a `media_file` item whose derived slug
equals the requested track id exactly (case-sensitively). -/
def itemMatches (track_id : String) : ItemPayload → Bool
  | ItemPayload.mediaFile filename _ _ ext => trackSlug filename ext == track_id
  | _ => false

/-- The claim's reading of the match test: case-insensitive comparison
of the derived slug with the track id. -/
def itemMatchesCI (track_id : String) : ItemPayload → Bool
  | ItemPayload.mediaFile filename _ _ ext =>
    lowerStr (trackSlug filename ext) == lowerStr track_id
  | _ => false

theorem findTrackGo_spec (track_id : String) (ps total : Nat) :
    ∀ (l : List ItemPayload) (idx : Nat),
      ((findTrackGo track_id ps total idx l).found = l.any (itemMatches track_id)) ∧
      ((findTrackGo track_id ps total idx l).index
        = l.findIdx? (itemMatches track_id) idx) ∧
      ((findTrackGo track_id ps total idx l).page
        = (l.findIdx? (itemMatches track_id) idx).map (fun j => j / ps + 1)) ∧
      ((findTrackGo track_id ps total idx l).total_items = total) := by
  intro l
  induction l with
  | nil => intro idx; exact ⟨rfl, rfl, rfl, rfl⟩
  | cons item rest ih =>
    intro idx
    match item with
    | ItemPayload.mediaFile filename p t ext =>
      by_cases h : (trackSlug filename ext == track_id) = true
      · simp [findTrackGo, List.findIdx?, itemMatches, h]
      · rw [Bool.not_eq_true] at h
        simpa [findTrackGo, List.findIdx?, itemMatches, h] using ih (idx + 1)
    | ItemPayload.nodeItem p ly s d pv =>
      simpa [findTrackGo, List.findIdx?, itemMatches] using ih (idx + 1)
    | ItemPayload.pathOnly p =>
      simpa [findTrackGo, List.findIdx?, itemMatches] using ih (idx + 1)

/-- C8 (amended): the find-track operation reports an item as found iff
the track id matches, case-SENSITIVELY (exactly), the id derived from
the item's filename by removing every occurrence of the extension
substring, replacing every character outside letters, digits, dash and
underscore with a dash, collapsing dash runs and trimming leading and
trailing dashes; the matching item is the first such item of the full
item list at 0-based index `i`, and the reported page is
`i / page_size + 1` (floor division). -/
theorem C8_find_track (items : List ItemPayload) (track_id : String) (page_size : Nat)
    (_hps : 0 < page_size) :
    ((find_track items track_id page_size).found = items.any (itemMatches track_id)) ∧
    ((find_track items track_id page_size).index
      = items.findIdx? (itemMatches track_id)) ∧
    ((find_track items track_id page_size).page
      = (items.findIdx? (itemMatches track_id)).map (fun j => j / page_size + 1)) ∧
    ((find_track items track_id page_size).total_items = items.length) :=
  findTrackGo_spec track_id page_size items.length items 0

/-- Witness for C8: the theorem applied at a concrete three-item list,
finding the second item (index 1) on page 1 of page size 2. -/
theorem C8_find_track_witness :
    (0 : Nat) < 2 ∧
    (find_track
        [ItemPayload.mediaFile "a one.mp3" "m/a one.mp3" "a one" ".mp3",
         ItemPayload.mediaFile "b two.mp3" "m/b two.mp3" "b two" ".mp3",
         ItemPayload.mediaFile "c three.mp3" "m/c three.mp3" "c three" ".mp3"]
        "b-two" 2).found = true ∧
    (find_track
        [ItemPayload.mediaFile "a one.mp3" "m/a one.mp3" "a one" ".mp3",
         ItemPayload.mediaFile "b two.mp3" "m/b two.mp3" "b two" ".mp3",
         ItemPayload.mediaFile "c three.mp3" "m/c three.mp3" "c three" ".mp3"]
        "b-two" 2).page = some 1 := by
  have h := C8_find_track
    [ItemPayload.mediaFile "a one.mp3" "m/a one.mp3" "a one" ".mp3",
     ItemPayload.mediaFile "b two.mp3" "m/b two.mp3" "b two" ".mp3",
     ItemPayload.mediaFile "c three.mp3" "m/c three.mp3" "c three" ".mp3"]
    "b-two" 2 (by decide)
  refine ⟨by decide, ?_, ?_⟩
  · rw [h.1]; decide
  · rw [h.2.2.1]; decide

/-- C8 counterexample: matching is case-sensitive in the code.  For the
file `Track.mp3`, the derived id is `Track`; the request id `track`
matches case-insensitively (as the claim asserts) but the operation
reports not found. -/
theorem C8_counterexample :
    (find_track [ItemPayload.mediaFile "Track.mp3" "x/Track.mp3" "Track" ".mp3"]
        "track" 10).found = false ∧
    itemMatchesCI "track"
      (ItemPayload.mediaFile "Track.mp3" "x/Track.mp3" "Track" ".mp3") = true := by
  exact ⟨by decide, by decide⟩

/-! ### Path-segment lemmas -/

theorem splitCh_ne_nil (xs : List Char) : splitCh xs ≠ [] := by
  induction xs with
  | nil => simp [splitCh]
  | cons c rest ih =>
    rw [splitCh]
    split
    · simp
    · cases h : splitCh rest with
      | nil => exact absurd h ih
      | cons s ss => simp [h]

theorem splitCh_no_slash (xs : List Char) :
    ∀ seg ∈ splitCh xs, seg.contains '/' = false := by
  induction xs with
  | nil => intro seg hseg; simp [splitCh] at hseg; simp [hseg]
  | cons c rest ih =>
    intro seg hseg
    rw [splitCh] at hseg
    split at hseg
    · rcases List.mem_cons.mp hseg with h | h
      · simp [h]
      · exact ih seg h
    · next hc =>
      cases h : splitCh rest with
      | nil => exact absurd h (splitCh_ne_nil rest)
      | cons s ss =>
        rw [h] at hseg
        rcases List.mem_cons.mp hseg with h2 | h2
        · subst h2
          have hs : s.contains '/' = false := ih s (by rw [h]; exact List.mem_cons_self _ _)
          simp only [List.contains_cons]
          have : (c == '/') = false := by
            cases h3 : c == '/'
            · rfl
            · exact absurd h3 hc
          have hcomm : ('/' == c) = false := by
            cases h4 : '/' == c
            · rfl
            · rw [beq_iff_eq] at h4
              rw [h4] at this
              simp at this
          rw [hcomm, Bool.false_or]
          exact hs
        · exact ih seg (by rw [h]; exact List.mem_cons_of_mem _ h2)

theorem splitCh_of_no_slash (xs : List Char) (h : xs.contains '/' = false) :
    splitCh xs = [xs] := by
  induction xs with
  | nil => rfl
  | cons c rest ih =>
    simp only [List.contains_cons, Bool.or_eq_false_iff] at h
    rw [splitCh]
    have hc : (c == '/') = false := by
      cases h4 : c == '/'
      · rfl
      · rw [beq_iff_eq] at h4
        rw [h4] at h
        simpa using h.1
    rw [if_neg (by simp [hc])]
    rw [ih h.2]

theorem splitCh_append_slash (xs ys : List Char) :
    splitCh (xs ++ '/' :: ys) = splitCh xs ++ splitCh ys := by
  induction xs with
  | nil => simp [splitCh]
  | cons c rest ih =>
    by_cases hc : c = '/'
    · subst hc
      simp only [List.cons_append]
      rw [splitCh, if_pos (by simp), splitCh, if_pos (by simp), ih]
      simp
    · simp only [List.cons_append]
      rw [splitCh, if_neg (by simp [hc]), splitCh, if_neg (by simp [hc]), ih]
      cases h : splitCh rest with
      | nil => exact absurd h (splitCh_ne_nil rest)
      | cons s ss => simp [h]

theorem splitCh_joinCh (segs : List (List Char)) (hne : segs ≠ [])
    (hns : ∀ seg ∈ segs, seg.contains '/' = false) :
    splitCh (joinCh segs) = segs := by
  induction segs with
  | nil => exact absurd rfl hne
  | cons s rest ih =>
    cases rest with
    | nil =>
      rw [joinCh]
      exact splitCh_of_no_slash s (hns s (List.mem_cons_self _ _))
    | cons s2 rest2 =>
      have hrest := ih (List.cons_ne_nil s2 rest2)
        (fun seg hseg => hns seg (List.mem_cons_of_mem _ hseg))
      have hj : joinCh (s :: s2 :: rest2) = s ++ '/' :: joinCh (s2 :: rest2) := rfl
      rw [hj, splitCh_append_slash, hrest,
        splitCh_of_no_slash s (hns s (List.mem_cons_self _ _))]
      rfl

theorem segCount_pos (s : String) : 1 ≤ segCount s := by
  unfold segCount
  cases h : splitCh s.data with
  | nil => exact absurd h (splitCh_ne_nil _)
  | cons a l => simp

theorem segCount_two_of_hasSlash (s : String) (h : hasSlash s = true) :
    2 ≤ segCount s := by
  unfold hasSlash at h
  unfold segCount
  generalize s.data = xs at h
  induction xs with
  | nil => simp at h
  | cons c rest ih =>
    simp only [List.contains_cons] at h
    rw [splitCh]
    by_cases hc : c = '/'
    · rw [if_pos (by simp [hc])]
      have := splitCh_ne_nil rest
      cases h2 : splitCh rest with
      | nil => exact absurd h2 this
      | cons a l => simp
    · rw [if_neg (by simp [hc])]
      have h3 : rest.contains '/' = true := by
        rcases Bool.or_eq_true_iff.mp h with h4 | h4
        · rw [beq_iff_eq] at h4
          exact absurd h4.symm hc
        · exact h4
      have := ih h3
      cases h2 : splitCh rest with
      | nil => exact absurd h2 (splitCh_ne_nil rest)
      | cons a l =>
        rw [h2] at this
        simpa using this

theorem segCount_truncateLast (s : String) (h : hasSlash s = true) :
    segCount (truncateLast s) = segCount s - 1 := by
  have h2 := segCount_two_of_hasSlash s h
  unfold segCount at h2 ⊢
  unfold truncateLast
  have hlen : 2 ≤ (splitCh s.data).length := h2
  have hne : (splitCh s.data).dropLast ≠ [] := by
    have := List.length_dropLast (splitCh s.data)
    intro hcon
    rw [hcon] at this
    simp only [List.length_nil] at this
    omega
  rw [show (String.mk (joinCh (splitCh s.data).dropLast)).data
        = joinCh (splitCh s.data).dropLast from rfl]
  rw [splitCh_joinCh _ hne
    (fun seg hseg => splitCh_no_slash s.data seg (List.dropLast_subset _ hseg))]
  rw [List.length_dropLast]

/-- `dictGet d k = some v` means `(k, v)` is a binding of `d`. -/
theorem dictGet_mem {β : Type} (d : List (String × β)) (k : String) (v : β)
    (h : dictGet d k = some v) : (k, v) ∈ d := by
  unfold dictGet at h
  cases hf : d.find? (fun kv => kv.1 == k) with
  | none => rw [hf] at h; simp at h
  | some kv =>
    rw [hf] at h
    have hv : kv.2 = v := by simpa using h
    have hmem := List.mem_of_find?_eq_some hf
    have hpred := List.find?_some hf
    simp only [beq_iff_eq] at hpred
    have hkv : kv = (k, v) := by
      cases kv with
      | mk a b => simp_all
    rw [hkv] at hmem
    exact hmem

/-! ### C10: termination of `_resolve_theme` -/

/-- C10: `_resolve_theme` terminates for every input path on every
graph whose registered, themeless nodes' truthy parent pointers
strictly shorten the segment count relative to the node's own path:
`fuel = segCount path` iterations always suffice (the truncation branch
removes one segment; the parent branch shortens by hypothesis). -/
theorem C10_theme_termination (g : ContentGraph)
    (hkey : ∀ kv ∈ g.nodes, (kv.2 : ContentNode).meta.path = kv.1)
    (hshrink : ∀ kv ∈ g.nodes, themeTruthy kv.2 = false →
      ∀ pp, (kv.2 : ContentNode).meta.parent_path = some pp → pp ≠ "" →
        segCount pp < segCount (kv.2 : ContentNode).meta.path)
    (path : String) (fuel : Nat) (hfuel : segCount path < fuel) :
    (resolveThemeAux g fuel path).isSome = true := by
  induction fuel generalizing path with
  | zero => omega
  | succ f ih =>
    rw [resolveThemeAux]
    by_cases hc : (path == "") = true
    · rw [if_pos hc]; rfl
    · rw [if_neg hc]
      cases hn : get_node g path with
      | some node =>
        dsimp only
        have hmem : (path, node) ∈ g.nodes := dictGet_mem g.nodes path node hn
        have hpath : node.meta.path = path := hkey (path, node) hmem
        by_cases ht : themeTruthy node = true
        · rw [if_pos ht]; rfl
        · rw [if_neg ht]
          by_cases hp : optStrTruthy node.meta.parent_path = true
          · rw [if_pos hp]
            cases hpp : node.meta.parent_path with
            | none => rw [hpp] at hp; simp [optStrTruthy] at hp
            | some pp =>
              have hppne : pp ≠ "" := by
                rw [hpp] at hp
                simp only [optStrTruthy, Bool.not_eq_true'] at hp
                intro hcon
                rw [hcon] at hp
                simp at hp
              have htf : themeTruthy node = false := by
                cases h3 : themeTruthy node
                · rfl
                · exact absurd h3 ht
              have hlt := hshrink (path, node) hmem htf pp hpp hppne
              rw [hpath] at hlt
              exact ih pp (by omega)
          · rw [if_neg hp]
            by_cases hs : hasSlash path = true
            · rw [if_pos hs]
              have h1 := segCount_truncateLast path hs
              have h2 := segCount_two_of_hasSlash path hs
              exact ih (truncateLast path) (by omega)
            · rw [if_neg hs]; rfl
      | none =>
        dsimp only
        by_cases hs : hasSlash path = true
        · rw [if_pos hs]
          have h1 := segCount_truncateLast path hs
          have h2 := segCount_two_of_hasSlash path hs
          exact ih (truncateLast path) (by omega)
        · rw [if_neg hs]; rfl

/-- A concrete node, for the example graphs below. -/
def plainNode (p : String) (parent theme pvtitle : Option String)
    (content : List Block) : ContentNode :=
  { meta :=
      { path := p, parent_path := parent, layout := "page", slug := none
        display_name := none, theme := theme, effects := [], extra := JVal.objNil
        collection_order := none }
    title := none, tagline := none
    preview := pvtitle.map (fun t =>
      { title := t, subtitle := none, image := none, badge := none, blurb := none })
    content := content }

/-- The grandparent-theme example: `g` is registered with theme `dark`;
`g/x/y` has no theme and its parent `g/x` is unregistered. -/
def themeExampleGraph : ContentGraph :=
  buildGraph "server" (some "root")
    [plainNode "g" none (some "dark") none [],
     plainNode "g/x/y" (some "g/x") none none []]

/-- Witness for C10: the theorem applied to the example graph at path
`g/x/y` with fuel 3, every hypothesis discharged concretely. -/
theorem C10_theme_termination_witness :
    (resolveThemeAux themeExampleGraph 4 "g/x/y").isSome = true :=
  C10_theme_termination themeExampleGraph (by decide) (by decide) "g/x/y" 4 (by decide)

/-! ### C4: `_resolve_theme` walks the ancestry and returns the first theme -/

theorem themeFromWalk_cons (g : ContentGraph) (q : String) (w : List String) :
    themeFromWalk g (q :: w)
      = if themeTruthyAt g q then themeAt g q else themeFromWalk g w := by
  unfold themeFromWalk
  by_cases h : themeTruthyAt g q = true
  · simp [List.find?_cons, h]
  · have hf : themeTruthyAt g q = false := (Bool.not_eq_true _) ▸ h
    simp [List.find?_cons, hf]

theorem resolveThemeAux_eq_themeFromWalk (g : ContentGraph) (fuel : Nat) :
    ∀ (path : String) (r : Option String),
      resolveThemeAux g fuel path = some r →
      r = themeFromWalk g (themeWalk g fuel path) := by
  induction fuel with
  | zero => intro path r h; simp [resolveThemeAux] at h
  | succ f ih =>
    intro path r h
    rw [resolveThemeAux] at h
    rw [themeWalk]
    by_cases hc : (path == "") = true
    · rw [if_pos hc] at h
      rw [if_pos hc]
      cases h
      simp [themeFromWalk]
    · rw [if_neg hc] at h
      rw [if_neg hc]
      cases hn : get_node g path with
      | some node =>
        rw [hn] at h
        dsimp only at h
        by_cases ht : themeTruthy node = true
        · rw [if_pos ht] at h
          cases h
          have hta : themeTruthyAt g path = true := by
            simp [themeTruthyAt, hn, ht]
          rw [themeFromWalk_cons, if_pos hta]
          simp [themeAt, hn]
        · rw [if_neg ht] at h
          have hta : themeTruthyAt g path = false := by
            simp only [themeTruthyAt, hn]
            exact (Bool.not_eq_true _) ▸ ht
          by_cases hp : optStrTruthy node.meta.parent_path = true
          · rw [if_pos hp] at h
            have hstep : themeStepNext g path = some (node.meta.parent_path.getD "") := by
              simp [themeStepNext, hn, hp]
            rw [hstep]
            rw [themeFromWalk_cons, if_neg (by simp [hta])]
            exact ih _ r h
          · rw [if_neg hp] at h
            by_cases hs : hasSlash path = true
            · rw [if_pos hs] at h
              have hstep : themeStepNext g path = some (truncateLast path) := by
                simp [themeStepNext, hn, hp, hs]
              rw [hstep, themeFromWalk_cons, if_neg (by simp [hta])]
              exact ih _ r h
            · rw [if_neg hs] at h
              cases h
              have hstep : themeStepNext g path = none := by
                simp [themeStepNext, hn, hp, hs]
              rw [hstep, themeFromWalk_cons, if_neg (by simp [hta])]
              simp [themeFromWalk]
      | none =>
        rw [hn] at h
        dsimp only at h
        have hta : themeTruthyAt g path = false := by
          simp [themeTruthyAt, hn]
        by_cases hs : hasSlash path = true
        · rw [if_pos hs] at h
          have hstep : themeStepNext g path = some (truncateLast path) := by
            simp [themeStepNext, hn, hs]
          rw [hstep, themeFromWalk_cons, if_neg (by simp [hta])]
          exact ih _ r h
        · rw [if_neg hs] at h
          cases h
          have hstep : themeStepNext g path = none := by
            simp [themeStepNext, hn, hs]
          rw [hstep, themeFromWalk_cons, if_neg (by simp [hta])]
          simp [themeFromWalk]

/-- C4: whenever `_resolve_theme`'s loop finishes, its result is the
theme of the first node along the walk that starts at `path` and
advances by truthy `parent_path`, else path-string truncation, else
stops — falling back to the graph's root theme when no visited path has
a truthy theme.  Concretely, on the example graph, `g/x/y` (no theme)
with unregistered parent `g/x` walks `g/x/y, g/x, g` by the truncation
fallback and resolves to the grandparent's theme `dark`. -/
theorem C4_resolve_theme (g : ContentGraph) (fuel : Nat) (path : String)
    (r : Option String) (h : resolveThemeAux g fuel path = some r) :
    r = themeFromWalk g (themeWalk g fuel path) ∧
    themeWalk themeExampleGraph 4 "g/x/y" = ["g/x/y", "g/x", "g"] ∧
    resolveThemeAux themeExampleGraph 4 "g/x/y" = some (some "dark") :=
  ⟨resolveThemeAux_eq_themeFromWalk g fuel path r h, by decide, by decide⟩

/-- Witness for C4: the theorem applied at the example graph, with the
loop-completion hypothesis discharged by computation. -/
theorem C4_resolve_theme_witness :
    resolveThemeAux themeExampleGraph 4 "g/x/y" = some (some "dark") ∧
    (some "dark" : Option String)
      = themeFromWalk themeExampleGraph (themeWalk themeExampleGraph 4 "g/x/y") :=
  ⟨by decide,
    (C4_resolve_theme themeExampleGraph 4 "g/x/y" (some "dark") (by decide)).1⟩

/-! ### Dictionary lemmas -/

theorem dictGet_nil {β : Type} (k : String) : dictGet ([] : List (String × β)) k = none := rfl

theorem dictGet_cons {β : Type} (a : String) (b : β) (d : List (String × β)) (k : String) :
    dictGet ((a, b) :: d) k = if a == k then some b else dictGet d k := by
  unfold dictGet
  by_cases h : (a == k) = true
  · simp [List.find?_cons, h]
  · simp only [List.find?_cons]
    rw [show (((a, b) : String × β).1 == k) = false from (Bool.not_eq_true _) ▸ h]
    simp [(Bool.not_eq_true _) ▸ h]

theorem dictGet_map_update {β : Type} (k p : String) (f : β → β)
    (hne : (k == p) = false) :
    ∀ d : List (String × β),
      dictGet (d.map (fun kv => if kv.1 == k then (kv.1, f kv.2) else kv)) p
        = dictGet d p := by
  intro d
  induction d with
  | nil => rfl
  | cons ab rest ih =>
    obtain ⟨a, b⟩ := ab
    simp only [List.map_cons]
    by_cases hak : (a == k) = true
    · rw [if_pos hak]
      have hap : (a == p) = false := by
        rw [beq_iff_eq] at hak
        subst hak
        exact hne
      rw [dictGet_cons, dictGet_cons, hap]
      simp only [Bool.false_eq_true, if_false]
      exact ih
    · rw [if_neg hak]
      rw [dictGet_cons, dictGet_cons]
      by_cases hap : (a == p) = true
      · rw [if_pos hap, if_pos hap]
      · rw [if_neg hap, if_neg hap]
        exact ih

theorem dictGet_map_update_self {β : Type} (k : String) (f : β → β) :
    ∀ d : List (String × β),
      dictGet (d.map (fun kv => if kv.1 == k then (kv.1, f kv.2) else kv)) k
        = (dictGet d k).map f := by
  intro d
  induction d with
  | nil => rfl
  | cons ab rest ih =>
    obtain ⟨a, b⟩ := ab
    simp only [List.map_cons]
    by_cases hak : (a == k) = true
    · rw [if_pos hak]
      rw [dictGet_cons, dictGet_cons, hak]
      rfl
    · rw [if_neg hak]
      rw [dictGet_cons, dictGet_cons, if_neg hak, if_neg hak]
      exact ih

theorem dictGet_append {β : Type} (d1 d2 : List (String × β)) (p : String) :
    dictGet (d1 ++ d2) p
      = match dictGet d1 p with
        | some v => some v
        | none => dictGet d2 p := by
  induction d1 with
  | nil => simp [dictGet_nil]
  | cons ab rest ih =>
    obtain ⟨a, b⟩ := ab
    rw [List.cons_append, dictGet_cons, dictGet_cons]
    by_cases hap : (a == p) = true
    · rw [if_pos hap, if_pos hap]
    · rw [if_neg hap, if_neg hap]
      exact ih

theorem find?_key_isSome_iff {β : Type} (d : List (String × β)) (k : String) :
    (d.find? (fun kv => kv.1 == k)).isSome = true ↔ (dictGet d k).isSome = true := by
  unfold dictGet
  cases d.find? (fun kv => kv.1 == k) <;> simp

theorem dictGet_dictInsert {β : Type} (d : List (String × β)) (k : String) (v : β)
    (p : String) :
    dictGet (dictInsert d k v) p = if k == p then some v else dictGet d p := by
  unfold dictInsert
  by_cases hfind : (d.find? (fun kv => kv.1 == k)).isSome = true
  · rw [if_pos hfind]
    by_cases hkp : (k == p) = true
    · rw [if_pos hkp]
      rw [beq_iff_eq] at hkp
      subst hkp
      rw [dictGet_map_update_self k (fun _ => v) d]
      rw [find?_key_isSome_iff] at hfind
      cases h : dictGet d k with
      | none => rw [h] at hfind; simp at hfind
      | some w => rfl
    · rw [if_neg hkp]
      exact dictGet_map_update k p (fun _ => v) ((Bool.not_eq_true _) ▸ hkp) d
  · rw [if_neg hfind]
    rw [dictGet_append]
    by_cases hkp : (k == p) = true
    · rw [if_pos hkp]
      rw [find?_key_isSome_iff] at hfind
      have : dictGet d p = none := by
        rw [beq_iff_eq] at hkp
        subst hkp
        cases h : dictGet d k with
        | none => rfl
        | some w => rw [h] at hfind; simp at hfind
      rw [this]
      simp [dictGet_cons, hkp]
    · have hkpf : (k == p) = false := (Bool.not_eq_true _) ▸ hkp
      rw [if_neg hkp]
      cases h : dictGet d p with
      | some w => rfl
      | none => simp [dictGet_cons, hkpf, dictGet_nil]

theorem dictGet_dictAppendChild (d : List (String × List String)) (k v p : String) :
    dictGet (dictAppendChild d k v) p
      = match dictGet d p with
        | some cs => some (cs ++ if k == p then [v] else [])
        | none => if k == p then some [v] else none := by
  unfold dictAppendChild
  by_cases hfind : (d.find? (fun kv => kv.1 == k)).isSome = true
  · rw [if_pos hfind]
    by_cases hkp : (k == p) = true
    · have hkp' : k = p := by rwa [beq_iff_eq] at hkp
      subst hkp'
      rw [dictGet_map_update_self k (fun cs => cs ++ [v]) d]
      rw [find?_key_isSome_iff] at hfind
      cases h : dictGet d k with
      | none => rw [h] at hfind; simp at hfind
      | some cs => simp
    · have hkpf : (k == p) = false := (Bool.not_eq_true _) ▸ hkp
      rw [dictGet_map_update k p (fun cs => cs ++ [v]) hkpf d]
      cases h : dictGet d p with
      | none => simp [hkpf]
      | some cs => simp [hkpf]
  · rw [if_neg hfind]
    rw [dictGet_append]
    rw [find?_key_isSome_iff] at hfind
    have hnone : dictGet d k = none := by
      cases h : dictGet d k with
      | none => rfl
      | some w => rw [h] at hfind; simp at hfind
    by_cases hkp : (k == p) = true
    · have hkp' : k = p := by rwa [beq_iff_eq] at hkp
      subst hkp'
      rw [hnone]
      rw [dictGet_cons]
      simp
    · have hkpf : (k == p) = false := (Bool.not_eq_true _) ▸ hkp
      cases h : dictGet d p with
      | some w => simp [hkpf]
      | none => simp [dictGet_cons, hkpf, dictGet_nil]

/-! ### C9: the parent→children index invariant -/

/-- The (truthy) index key a node's registration contributes children
under: its `parent_path` when that is neither `None` nor empty. -/
def parentKey (n : ContentNode) : Option String :=
  match n.meta.parent_path with
  | some pp => if pp == "" then none else some pp
  | none => none

/-- The paths of the nodes of `L` registered under parent `p`, in
registration order. -/
def registeredChildren (L : List ContentNode) (p : String) : List String :=
  (L.filter (fun n => parentKey n == some p)).map (fun n => n.meta.path)

theorem register_node_children_get (g : ContentGraph) (n : ContentNode) (p : String) :
    dictGet (register_node g n).children_by_parent p
      = match dictGet g.children_by_parent p with
        | some cs => some (cs ++ if parentKey n == some p then [n.meta.path] else [])
        | none =>
          if parentKey n == some p then some [n.meta.path] else none := by
  unfold register_node parentKey
  cases hpp : n.meta.parent_path with
  | none =>
    dsimp only
    cases h : dictGet g.children_by_parent p with
    | none => simp
    | some cs => simp
  | some pp =>
    dsimp only
    by_cases he : (pp == "") = true
    · rw [if_pos he]
      dsimp only
      rw [if_pos he]
      cases h : dictGet g.children_by_parent p with
      | none => simp
      | some cs => simp
    · rw [if_neg he]
      dsimp only
      rw [if_neg he]
      rw [dictGet_dictAppendChild]
      by_cases hp : (pp == p) = true
      · have : ((some pp : Option String) == some p) = true := by
          rw [beq_iff_eq] at hp ⊢
          rw [hp]
        rw [this, hp]
      · have : ((some pp : Option String) == some p) = false := by
          rw [Bool.eq_false_iff]
          intro hcon
          rw [beq_iff_eq] at hcon
          exact hp (by rw [beq_iff_eq]; exact Option.some.inj hcon)
        have hpf : (pp == p) = false := (Bool.not_eq_true _) ▸ hp
        rw [this, hpf]

theorem register_node_nodes_get (g : ContentGraph) (n : ContentNode) (q : String) :
    dictGet (register_node g n).nodes q
      = if n.meta.path == q then some n else dictGet g.nodes q := by
  unfold register_node
  cases hpp : n.meta.parent_path with
  | none => exact dictGet_dictInsert g.nodes n.meta.path n q
  | some pp =>
    dsimp only
    by_cases he : (pp == "") = true
    · rw [if_pos he]
      exact dictGet_dictInsert g.nodes n.meta.path n q
    · rw [if_neg he]
      exact dictGet_dictInsert g.nodes n.meta.path n q

theorem foldl_register_children_get (L : List ContentNode) :
    ∀ (g : ContentGraph) (p : String),
      dictGet (L.foldl register_node g).children_by_parent p
        = match dictGet g.children_by_parent p with
          | some cs => some (cs ++ registeredChildren L p)
          | none =>
            if registeredChildren L p = [] then none
            else some (registeredChildren L p) := by
  induction L with
  | nil =>
    intro g p
    cases h : dictGet g.children_by_parent p with
    | none => simp [registeredChildren]; exact h
    | some cs => simp [registeredChildren]; exact h
  | cons n L' ih =>
    intro g p
    rw [List.foldl_cons]
    rw [ih (register_node g n) p]
    rw [register_node_children_get]
    have hrc : registeredChildren (n :: L') p
        = (if parentKey n == some p then [n.meta.path] else []) ++ registeredChildren L' p := by
      unfold registeredChildren
      rw [List.filter_cons]
      by_cases h : (parentKey n == some p) = true
      · rw [if_pos h, if_pos h]
        simp
      · rw [if_neg h, if_neg h]
        simp
    rw [hrc]
    by_cases h : parentKey n = some p
    · cases hg : dictGet g.children_by_parent p with
      | some cs => simp [h]
      | none => simp [h]
    · cases hg : dictGet g.children_by_parent p with
      | some cs => simp [h]
      | none => simp [h]

theorem foldl_register_nodes_get (L : List ContentNode) :
    ∀ (g : ContentGraph) (q : String),
      dictGet (L.foldl register_node g).nodes q
        = match (L.filter (fun n => n.meta.path == q)).getLast? with
          | some n => some n
          | none => dictGet g.nodes q := by
  induction L with
  | nil => intro g q; rfl
  | cons n L' ih =>
    intro g q
    rw [List.foldl_cons]
    rw [ih (register_node g n) q]
    rw [register_node_nodes_get]
    rw [List.filter_cons]
    by_cases h : (n.meta.path == q) = true
    · rw [if_pos h, if_pos h]
      cases hl : (L'.filter (fun n => n.meta.path == q)).getLast? with
      | some m =>
        have : (n :: L'.filter (fun n => n.meta.path == q)).getLast? = some m := by
          cases hfl : L'.filter (fun n => n.meta.path == q) with
          | nil => rw [hfl] at hl; simp at hl
          | cons a l =>
            rw [hfl] at hl
            rw [List.getLast?_cons_cons]
            exact hl
        rw [this]
      | none =>
        have hfl : L'.filter (fun n => n.meta.path == q) = [] := by
          cases hfl : L'.filter (fun n => n.meta.path == q) with
          | nil => rfl
          | cons a l => rw [hfl] at hl; simp at hl
        rw [hfl]
        simp
    · rw [if_neg h, if_neg h]

/-- Unique-path lookup: with pairwise-distinct paths, the node map at a
registered node's path is that node. -/
theorem filter_path_eq_singleton (L : List ContentNode)
    (hnodup : (L.map (fun n => n.meta.path)).Nodup) (n : ContentNode) (hn : n ∈ L) :
    L.filter (fun m => m.meta.path == n.meta.path) = [n] := by
  induction L with
  | nil => cases hn
  | cons m L' ih =>
    rw [List.map_cons, List.nodup_cons] at hnodup
    rcases List.mem_cons.mp hn with h | h
    · subst h
      rw [List.filter_cons, if_pos (by simp)]
      have : L'.filter (fun m => m.meta.path == n.meta.path) = [] := by
        rw [List.filter_eq_nil_iff]
        intro a ha
        intro hcon
        rw [beq_iff_eq] at hcon
        exact hnodup.1 (hcon ▸ List.mem_map_of_mem (fun x => x.meta.path) ha)
      rw [this]
    · rw [List.filter_cons]
      have hne : (m.meta.path == n.meta.path) = false := by
        rw [Bool.eq_false_iff]
        intro hcon
        rw [beq_iff_eq] at hcon
        exact hnodup.1 (hcon ▸ List.mem_map_of_mem (fun x => x.meta.path) h)
      rw [hne]
      simp only [Bool.false_eq_true, if_false]
      exact ih hnodup.2 h

/-- C9: after registering any sequence of nodes with pairwise-distinct
paths, (1) every path in `children_by_parent[p]` names a registered
node whose `meta.parent_path` is exactly `p`, (2) the child list under
`p` is precisely the paths of the nodes registered with truthy parent
`p`, in registration order, and (3) the index is append-only:
registering more nodes only extends each child list at its end. -/
theorem C9_children_invariant (rcp : String) (rt : Option String)
    (L L2 : List ContentNode) (p c : String) (cs : List String)
    (hnodup : (L.map (fun n => n.meta.path)).Nodup)
    (hget : dictGet (buildGraph rcp rt L).children_by_parent p = some cs)
    (hc : c ∈ cs) :
    (dictGet (buildGraph rcp rt L).nodes c).map (fun n => n.meta.parent_path)
      = some (some p) ∧
    cs = registeredChildren L p ∧
    dictGetD (buildGraph rcp rt L).children_by_parent p []
      <+: dictGetD (buildGraph rcp rt (L ++ L2)).children_by_parent p [] := by
  have hchar := foldl_register_children_get L
    { root_content_path := rcp, root_theme := rt, nodes := [], children_by_parent := [] } p
  rw [show dictGet
      ({ root_content_path := rcp, root_theme := rt, nodes := [],
         children_by_parent := [] } : ContentGraph).children_by_parent p = none from rfl] at hchar
  have hcs : cs = registeredChildren L p := by
    unfold buildGraph at hget
    rw [hchar] at hget
    by_cases hre : registeredChildren L p = []
    · rw [if_pos hre] at hget; cases hget
    · rw [if_neg hre] at hget
      exact (Option.some.inj hget).symm
  refine ⟨?_, hcs, ?_⟩
  · rw [hcs] at hc
    unfold registeredChildren at hc
    rcases List.mem_map.mp hc with ⟨n, hnf, hnp⟩
    have hnL : n ∈ L := (List.mem_filter.mp hnf).1
    have hkey : (parentKey n == some p) = true := (List.mem_filter.mp hnf).2
    have hpar : n.meta.parent_path = some p := by
      unfold parentKey at hkey
      cases hpp : n.meta.parent_path with
      | none => rw [hpp] at hkey; simp at hkey
      | some pp =>
        rw [hpp] at hkey
        dsimp only at hkey
        by_cases he : (pp == "") = true
        · rw [if_pos he] at hkey; simp at hkey
        · rw [if_neg he] at hkey
          rw [beq_iff_eq] at hkey
          exact hkey
    have hnodes := foldl_register_nodes_get L
      { root_content_path := rcp, root_theme := rt, nodes := [], children_by_parent := [] } c
    unfold buildGraph
    rw [hnodes]
    rw [← hnp]
    rw [filter_path_eq_singleton L hnodup n hnL]
    simp [hpar]
  · have hchar2 := foldl_register_children_get (L ++ L2)
      { root_content_path := rcp, root_theme := rt, nodes := [], children_by_parent := [] } p
    rw [show dictGet
        ({ root_content_path := rcp, root_theme := rt, nodes := [],
           children_by_parent := [] } : ContentGraph).children_by_parent p = none from rfl] at hchar2
    have happ : registeredChildren (L ++ L2) p
        = registeredChildren L p ++ registeredChildren L2 p := by
      unfold registeredChildren
      rw [List.filter_append, List.map_append]
    unfold buildGraph dictGetD
    rw [hchar, hchar2, happ]
    by_cases hre : registeredChildren L p = []
    · rw [if_pos hre]
      simp [hre]
    · rw [if_neg hre]
      by_cases hre2 : registeredChildren L p ++ registeredChildren L2 p = []
      · rw [List.append_eq_nil] at hre2
        exact absurd hre2.1 hre
      · rw [if_neg hre2]
        simp only [Option.getD_some]
        exact ⟨registeredChildren L2 p, rfl⟩

/-- Witness for C9: the theorem applied to a concrete three-node graph
(`artists` with children `artists/zol`, `artists/dissolvr`), extended
by one more child. -/
theorem C9_children_invariant_witness :
    (dictGet (buildGraph "server" none
        [plainNode "artists" none none none [],
         plainNode "artists/zol" (some "artists") none none [],
         plainNode "artists/dissolvr" (some "artists") none none []]).nodes
        "artists/zol").map (fun n => n.meta.parent_path) = some (some "artists") ∧
    ["artists/zol", "artists/dissolvr"]
      = registeredChildren
          [plainNode "artists" none none none [],
           plainNode "artists/zol" (some "artists") none none [],
           plainNode "artists/dissolvr" (some "artists") none none []] "artists" ∧
    dictGetD (buildGraph "server" none
        [plainNode "artists" none none none [],
         plainNode "artists/zol" (some "artists") none none [],
         plainNode "artists/dissolvr" (some "artists") none none []]).children_by_parent
        "artists" []
      <+: dictGetD (buildGraph "server" none
        ([plainNode "artists" none none none [],
          plainNode "artists/zol" (some "artists") none none [],
          plainNode "artists/dissolvr" (some "artists") none none []]
         ++ [plainNode "artists/zed" (some "artists") none none []])).children_by_parent
        "artists" [] :=
  C9_children_invariant "server" none
    [plainNode "artists" none none none [],
     plainNode "artists/zol" (some "artists") none none [],
     plainNode "artists/dissolvr" (some "artists") none none []]
    [plainNode "artists/zed" (some "artists") none none []]
    "artists" "artists/zol" ["artists/zol", "artists/dissolvr"]
    (by decide) (by decide) (by decide)

/-! ### C3: folder source — index and prefix scan agree -/

/-- The parent a path implies syntactically: truncate the last segment
when the path contains a separator, else none. -/
def syntacticParent (p : String) : Option String :=
  if hasSlash p then some (truncateLast p) else none

theorem mk_data (s : String) : String.mk s.data = s := by
  cases s
  rfl

theorem joinCh_splitCh (xs : List Char) : joinCh (splitCh xs) = xs := by
  induction xs with
  | nil => rfl
  | cons c rest ih =>
    rw [splitCh]
    by_cases hc : (c == '/') = true
    · rw [if_pos hc]
      cases h : splitCh rest with
      | nil => exact absurd h (splitCh_ne_nil rest)
      | cons s ss =>
        have hj : joinCh ([] :: s :: ss) = [] ++ '/' :: joinCh (s :: ss) := rfl
        rw [hj, ← h, ih]
        have hce : c = '/' := by rwa [beq_iff_eq] at hc
        rw [hce]
        rfl
    · rw [if_neg hc]
      cases h : splitCh rest with
      | nil => exact absurd h (splitCh_ne_nil rest)
      | cons s ss =>
        rw [h] at ih
        cases ss with
        | nil =>
          have hj : joinCh [c :: s] = c :: s := rfl
          rw [hj]
          have hj2 : joinCh [s] = s := rfl
          rw [hj2] at ih
          rw [ih]
        | cons s2 ss2 =>
          have hj : joinCh ((c :: s) :: s2 :: ss2) = (c :: s) ++ '/' :: joinCh (s2 :: ss2) := rfl
          rw [hj]
          have hj2 : joinCh (s :: s2 :: ss2) = s ++ '/' :: joinCh (s2 :: ss2) := rfl
          rw [hj2] at ih
          rw [List.cons_append, ih]

theorem joinCh_append_singleton (xs : List (List Char)) (r : List Char) (hne : xs ≠ []) :
    joinCh (xs ++ [r]) = joinCh xs ++ '/' :: r := by
  induction xs with
  | nil => exact absurd rfl hne
  | cons s rest ih =>
    cases rest with
    | nil => rfl
    | cons s2 rest2 =>
      have hj : joinCh ((s :: s2 :: rest2) ++ [r]) = s ++ '/' :: joinCh ((s2 :: rest2) ++ [r]) := rfl
      have hj2 : joinCh (s :: s2 :: rest2) = s ++ '/' :: joinCh (s2 :: rest2) := rfl
      rw [hj, hj2, ih (List.cons_ne_nil s2 rest2)]
      simp

theorem contains_iff_mem (l : List Char) (a : Char) : l.contains a = true ↔ a ∈ l := by
  induction l with
  | nil => simp
  | cons c rest ih =>
    simp only [List.contains_cons, Bool.or_eq_true, beq_iff_eq, List.mem_cons, ih]

theorem dcGo_iff (p : List Char) :
    ∀ q, dcGo p q = true ↔ ∃ r, q = p ++ r ∧ r.contains '/' = false := by
  induction p with
  | nil =>
    intro q
    constructor
    · intro h
      exact ⟨q, rfl, by simpa [dcGo] using h⟩
    · rintro ⟨r, rfl, hr⟩
      simpa [dcGo] using hr
  | cons a p' ih =>
    intro q
    cases q with
    | nil =>
      constructor
      · intro h
        rw [show dcGo (a :: p') [] = false from rfl] at h
        cases h
      · rintro ⟨r, hq, _⟩
        simp at hq
    | cons c cs =>
      rw [show dcGo (a :: p') (c :: cs) = (a == c && dcGo p' cs) from rfl]
      constructor
      · intro h
        obtain ⟨hac, hgo⟩ := (Bool.and_eq_true _ _) ▸ h
        rcases (ih cs).mp hgo with ⟨r, hcr, hr⟩
        have hace : a = c := by rwa [beq_iff_eq] at hac
        exact ⟨r, by rw [hcr, hace]; rfl, hr⟩
      · rintro ⟨r, hq, hr⟩
        rw [List.cons_append] at hq
        have hca : c = a := (List.cons.injEq _ _ _ _ ▸ hq).1
        have hcs : cs = p' ++ r := (List.cons.injEq _ _ _ _ ▸ hq).2
        rw [Bool.and_eq_true]
        exact ⟨by rw [beq_iff_eq]; exact hca.symm, (ih cs).mpr ⟨r, hcs, hr⟩⟩

/-- The character-level scan test is exactly "syntactic direct child":
`q` starts with `P + "/"` and has no further separator iff `q` has a
separator and truncating its last segment gives `P`. -/
theorem isDirectChildOf_iff (P q : String) :
    isDirectChildOf P q = true ↔ (hasSlash q = true ∧ truncateLast q = P) := by
  unfold isDirectChildOf
  rw [dcGo_iff]
  constructor
  · rintro ⟨r, hq, hr⟩
    have hq' : q.data = P.data ++ '/' :: r := by
      rw [hq, List.append_assoc]
      rfl
    constructor
    · unfold hasSlash
      rw [hq']
      rw [contains_iff_mem]
      exact List.mem_append_right _ (List.mem_cons_self _ _)
    · unfold truncateLast
      rw [hq', splitCh_append_slash, splitCh_of_no_slash r hr]
      rw [List.dropLast_concat]
      rw [joinCh_splitCh]
  · rintro ⟨hs, ht⟩
    have h2 := segCount_two_of_hasSlash q hs
    unfold segCount at h2
    have hq0 : q.data = joinCh (splitCh q.data) := (joinCh_splitCh q.data).symm
    have htr : joinCh ((splitCh q.data).dropLast) = P.data := by
      have hd := congrArg String.data ht
      unfold truncateLast at hd
      simpa using hd
    have hnosl := splitCh_no_slash q.data
    revert hq0 htr hnosl h2
    generalize splitCh q.data = segs
    intro h2 hq0 htr hnosl
    have hne : segs ≠ [] := by
      intro hcon
      rw [hcon] at h2
      simp at h2
    have hne2 : segs.dropLast ≠ [] := by
      intro hcon
      have hld := List.length_dropLast segs
      rw [hcon] at hld
      simp only [List.length_nil] at hld
      omega
    have hsplit : segs.dropLast ++ [segs.getLast hne] = segs :=
      List.dropLast_append_getLast hne
    refine ⟨segs.getLast hne, ?_, hnosl _ (List.getLast_mem hne)⟩
    rw [hq0]
    conv_lhs => rw [← hsplit]
    rw [joinCh_append_singleton _ _ hne2, htr, List.append_assoc]
    rfl

theorem register_node_nodes_field (g : ContentGraph) (n : ContentNode) :
    (register_node g n).nodes = dictInsert g.nodes n.meta.path n := by
  unfold register_node
  cases n.meta.parent_path with
  | none => rfl
  | some pp =>
    dsimp only
    by_cases he : (pp == "") = true
    · rw [if_pos he]
    · rw [if_neg he]

theorem dictInsert_of_absent {β : Type} (d : List (String × β)) (k : String) (v : β)
    (h : dictGet d k = none) : dictInsert d k v = d ++ [(k, v)] := by
  unfold dictInsert
  have hb : (d.find? (fun kv => kv.1 == k)).isSome = false := by
    rw [Bool.eq_false_iff]
    intro hcon
    rw [find?_key_isSome_iff, h] at hcon
    simp at hcon
  rw [hb]
  simp

theorem register_node_keys (g : ContentGraph) (n : ContentNode)
    (h : dictGet g.nodes n.meta.path = none) :
    (register_node g n).nodes.map (fun kv => kv.1)
      = g.nodes.map (fun kv => kv.1) ++ [n.meta.path] := by
  rw [register_node_nodes_field, dictInsert_of_absent g.nodes n.meta.path n h]
  simp

theorem foldl_register_keys (L : List ContentNode) :
    ∀ (g : ContentGraph),
      (∀ n ∈ L, dictGet g.nodes n.meta.path = none) →
      ((L.map (fun n => n.meta.path)).Nodup) →
      (L.foldl register_node g).nodes.map (fun kv => kv.1)
        = g.nodes.map (fun kv => kv.1) ++ L.map (fun n => n.meta.path) := by
  induction L with
  | nil => intro g _ _; simp
  | cons n L' ih =>
    intro g habs hnodup
    rw [List.foldl_cons]
    rw [List.map_cons, List.nodup_cons] at hnodup
    have habs' : ∀ m ∈ L', dictGet (register_node g n).nodes m.meta.path = none := by
      intro m hm
      rw [register_node_nodes_get]
      have hne : (n.meta.path == m.meta.path) = false := by
        rw [Bool.eq_false_iff]
        intro hcon
        rw [beq_iff_eq] at hcon
        exact hnodup.1 (hcon ▸ List.mem_map_of_mem (fun x => x.meta.path) hm)
      rw [hne]
      simp only [Bool.false_eq_true, if_false]
      exact habs m (List.mem_cons_of_mem _ hm)
    rw [ih (register_node g n) habs' hnodup.2]
    rw [register_node_keys g n (habs n (List.mem_cons_self _ _))]
    simp

theorem parentKey_ne_empty (n : ContentNode) : (parentKey n == some "") = false := by
  unfold parentKey
  cases n.meta.parent_path with
  | none => rfl
  | some pp =>
    dsimp only
    by_cases he : (pp == "") = true
    · rw [if_pos he]; rfl
    · rw [if_neg he]
      rw [Bool.eq_false_iff]
      intro hcon
      rw [beq_iff_eq] at hcon
      have hpe : pp = "" := Option.some.inj hcon
      rw [hpe] at he
      exact he rfl

theorem length_dropWhile_le_ch (p : Char → Bool) (l : List Char) :
    (l.dropWhile p).length ≤ l.length := by
  induction l with
  | nil => simp
  | cons c rest ih =>
    rw [List.dropWhile_cons]
    by_cases h : p c = true
    · rw [if_pos h]
      exact Nat.le_succ_of_le ih
    · rw [if_neg h]

theorem stripSlashes_head_slash (s : String) (xs : List Char)
    (hdata : s.data = '/' :: xs) : ¬ stripSlashes s = s := by
  intro hcon
  have hd : stripChList '/' s.data = s.data := congrArg String.data hcon
  have hlen := congrArg List.length hd
  rw [hdata] at hlen
  have hle : (stripChList '/' ('/' :: xs)).length ≤ xs.length := by
    unfold stripChList
    rw [List.dropWhile_cons]
    rw [if_pos (by simp)]
    calc ((xs.dropWhile (fun x => x == '/')).reverse.dropWhile (fun x => x == '/')).reverse.length
        = ((xs.dropWhile (fun x => x == '/')).reverse.dropWhile (fun x => x == '/')).length :=
          List.length_reverse _
      _ ≤ (xs.dropWhile (fun x => x == '/')).reverse.length := length_dropWhile_le_ch _ _
      _ = (xs.dropWhile (fun x => x == '/')).length := List.length_reverse _
      _ ≤ xs.length := length_dropWhile_le_ch _ _
  simp only [List.length_cons] at hlen
  omega

/-- Under syntactic parent pointers and clean paths, the scan test and
the index key agree node by node. -/
theorem direct_child_key_equiv (L : List ContentNode)
    (hsyn : ∀ n ∈ L, n.meta.parent_path = syntacticParent n.meta.path)
    (hclean : ∀ n ∈ L, stripSlashes n.meta.path = n.meta.path)
    (P : String) :
    ∀ n ∈ L, isDirectChildOf P n.meta.path = (parentKey n == some P) := by
  intro n hn
  by_cases hd : isDirectChildOf P n.meta.path = true
  · rw [hd]
    rcases (isDirectChildOf_iff P n.meta.path).mp hd with ⟨hs, ht⟩
    have hpar : n.meta.parent_path = some P := by
      rw [hsyn n hn]
      unfold syntacticParent
      rw [if_pos hs, ht]
    have hPne : ¬ (P == "") = true := by
      intro he
      rw [beq_iff_eq] at he
      subst he
      rcases (dcGo_iff _ _).mp hd with ⟨r, hq, _⟩
      have hq' : n.meta.path.data = '/' :: r := by simpa using hq
      exact stripSlashes_head_slash n.meta.path r hq' (hclean n hn)
    symm
    unfold parentKey
    rw [hpar]
    dsimp only
    rw [if_neg hPne]
    simp
  · have hdf : isDirectChildOf P n.meta.path = false := (Bool.not_eq_true _) ▸ hd
    rw [hdf]
    symm
    rw [Bool.eq_false_iff]
    intro hcon
    rw [beq_iff_eq] at hcon
    have hsynn := hsyn n hn
    unfold parentKey at hcon
    rw [hsynn] at hcon
    unfold syntacticParent at hcon
    by_cases hs : hasSlash n.meta.path = true
    · rw [if_pos hs] at hcon
      dsimp only at hcon
      by_cases he : (truncateLast n.meta.path == "") = true
      · rw [if_pos he] at hcon
        cases hcon
      · rw [if_neg he] at hcon
        have htp : truncateLast n.meta.path = P := Option.some.inj hcon
        exact hd ((isDirectChildOf_iff P n.meta.path).mpr ⟨hs, htp⟩)
    · rw [if_neg hs] at hcon
      cases hcon

/-- C3: on graphs whose nodes carry syntactic parent pointers and clean
(no leading/trailing separator) paths, with pairwise-distinct paths,
`_resolve_folder_source` returns exactly the registered children of
`P`, and whenever `P` is a key of the fast index, the indexed child
list equals the fallback prefix scan's list. -/
theorem C3_folder_agreement (rcp : String) (rt : Option String)
    (L : List ContentNode) (P : String)
    (hnodup : (L.map (fun n => n.meta.path)).Nodup)
    (hsyn : ∀ n ∈ L, n.meta.parent_path = syntacticParent n.meta.path)
    (hclean : ∀ n ∈ L, stripSlashes n.meta.path = n.meta.path)
    (hP : stripSlashes P = P) :
    resolve_folder_source (buildGraph rcp rt L) (some P) = registeredChildren L P ∧
    (∀ cs, dictGet (buildGraph rcp rt L).children_by_parent P = some cs →
      cs = prefixScan (buildGraph rcp rt L) P) := by
  have hkeys : (buildGraph rcp rt L).nodes.map (fun kv => kv.1)
      = L.map (fun n => n.meta.path) := by
    unfold buildGraph
    rw [foldl_register_keys L
      { root_content_path := rcp, root_theme := rt, nodes := [], children_by_parent := [] }
      (fun n _ => rfl) hnodup]
    exact List.nil_append _
  have hscan : prefixScan (buildGraph rcp rt L) P = registeredChildren L P := by
    unfold prefixScan registeredChildren
    rw [hkeys]
    rw [List.filter_map]
    congr 1
    apply List.filter_congr
    intro n hn
    show isDirectChildOf P n.meta.path = (parentKey n == some P)
    exact direct_child_key_equiv L hsyn hclean P n hn
  have hchar := foldl_register_children_get L
    { root_content_path := rcp, root_theme := rt, nodes := [], children_by_parent := [] } P
  rw [show dictGet
      ({ root_content_path := rcp, root_theme := rt, nodes := [],
         children_by_parent := [] } : ContentGraph).children_by_parent P = none from rfl] at hchar
  dsimp only at hchar
  constructor
  · unfold resolve_folder_source
    dsimp only
    by_cases hPe : (P == "") = true
    · rw [if_pos hPe]
      have hPee : P = "" := by rwa [beq_iff_eq] at hPe
      subst hPee
      unfold registeredChildren
      have : L.filter (fun n => parentKey n == some "") = [] := by
        rw [List.filter_eq_nil_iff]
        intro n _
        rw [parentKey_ne_empty n]
        simp
      rw [this]
      rfl
    · rw [if_neg hPe]
      rw [hP]
      unfold buildGraph
      rw [hchar]
      by_cases hre : registeredChildren L P = []
      · rw [if_pos hre]
        dsimp only
        unfold buildGraph at hscan
        rw [hscan, hre]
      · rw [if_neg hre]
  · intro cs hcs
    unfold buildGraph at hcs
    rw [hchar] at hcs
    by_cases hre : registeredChildren L P = []
    · rw [if_pos hre] at hcs
      cases hcs
    · rw [if_neg hre] at hcs
      rw [Option.some.inj hcs] at hscan
      exact hscan.symm

/-- Witness for C3: the theorem applied at a concrete graph where
`artists` is indexed, and its hypotheses checked by computation. -/
theorem C3_folder_agreement_witness :
    resolve_folder_source
        (buildGraph "server" none
          [plainNode "artists" none none none [],
           plainNode "artists/zol" (some "artists") none none [],
           plainNode "artists/dissolvr" (some "artists") none none []])
        (some "artists")
      = registeredChildren
          [plainNode "artists" none none none [],
           plainNode "artists/zol" (some "artists") none none [],
           plainNode "artists/dissolvr" (some "artists") none none []] "artists" ∧
    (∀ cs, dictGet (buildGraph "server" none
          [plainNode "artists" none none none [],
           plainNode "artists/zol" (some "artists") none none [],
           plainNode "artists/dissolvr" (some "artists") none none []]).children_by_parent
          "artists" = some cs →
      cs = prefixScan (buildGraph "server" none
          [plainNode "artists" none none none [],
           plainNode "artists/zol" (some "artists") none none [],
           plainNode "artists/dissolvr" (some "artists") none none []]) "artists") :=
  C3_folder_agreement "server" none
    [plainNode "artists" none none none [],
     plainNode "artists/zol" (some "artists") none none [],
     plainNode "artists/dissolvr" (some "artists") none none []]
    "artists" (by decide) (by decide) (by decide) (by decide)

/-! ### C1: pagination -/

theorem concatPages_eq (s : Nat) :
    ∀ (n : Nat) (xs : List String), xs.length ≤ n * s →
      ((List.range n).map (fun i => (xs.drop (i * s)).take s)).flatten = xs := by
  intro n
  induction n with
  | zero =>
    intro xs h
    simp only [Nat.zero_mul, Nat.le_zero] at h
    rw [List.length_eq_zero] at h
    subst h
    rfl
  | succ m ih =>
    intro xs h
    rw [List.range_succ_eq_map]
    rw [List.map_cons, List.map_map]
    have hjc : ∀ (a : List String) (l : List (List String)), (a :: l).flatten = a ++ l.flatten :=
      fun a l => rfl
    rw [hjc]
    have hzero : (xs.drop (0 * s)).take s = xs.take s := by
      rw [Nat.zero_mul, List.drop_zero]
    rw [hzero]
    have hshift : ((List.range m).map
          ((fun i => (xs.drop (i * s)).take s) ∘ Nat.succ)).flatten
        = ((List.range m).map (fun i => ((xs.drop s).drop (i * s)).take s)).flatten := by
      congr 1
      apply List.map_congr_left
      intro i _
      show (xs.drop (Nat.succ i * s)).take s = ((xs.drop s).drop (i * s)).take s
      rw [List.drop_drop]
      congr 2
      rw [Nat.succ_mul]
      omega
    rw [hshift]
    rw [ih (xs.drop s) (by rw [List.length_drop]; rw [Nat.succ_mul] at h; omega)]
    exact List.take_append_drop s xs

theorem le_ceil_mul (len s : Nat) (hs : 1 ≤ s) : len ≤ ((len + s - 1) / s) * s := by
  have h1 := Nat.div_add_mod (len + s - 1) s
  have h2 : (len + s - 1) % s < s := Nat.mod_lt _ (by omega)
  have h3 : s * ((len + s - 1) / s) = ((len + s - 1) / s) * s := Nat.mul_comm _ _
  omega

theorem lt_ceil_iff_mul_lt (p s ti : Nat) (_hp : 1 ≤ p) (hs : 1 ≤ s) :
    p * s < ti ↔ p < (ti + s - 1) / s := by
  constructor
  · intro h
    rw [Nat.lt_iff_add_one_le, Nat.le_div_iff_mul_le (by omega : 0 < s)]
    rw [Nat.add_mul, Nat.one_mul]
    omega
  · intro h
    rw [Nat.lt_iff_add_one_le, Nat.le_div_iff_mul_le (by omega : 0 < s)] at h
    rw [Nat.add_mul, Nat.one_mul] at h
    omega

theorem start_add_size (p s : Nat) (hp : 1 ≤ p) : (p - 1) * s + s = p * s := by
  cases p with
  | zero => omega
  | succ q => simp [Nat.succ_sub_one, Nat.succ_mul]

theorem normPage_natCast_succ (i : Nat) : normPage ((i : Int) + 1) = i + 1 := by
  unfold normPage
  rw [if_neg (by rw [beq_iff_eq]; omega : ¬ (((i : Int) + 1) == 0) = true)]
  have hmax : max 1 ((i : Int) + 1) = (i : Int) + 1 := max_eq_right (by omega)
  rw [hmax]
  omega

/-- C1: with the effective page size `s ≥ 1` and page `p ≥ 1`,
`resolve_collection`'s paging metadata satisfies
`total_pages = ⌈total_items / s⌉`; the returned items are exactly the
payloads of the slice `[(p-1)·s, p·s)` of the sorted-and-limited
candidate list; concatenating the item lists of pages `1..total_pages`
reproduces those candidates exactly once each; `has_more` holds iff
`p < total_pages`, equivalently iff `p·s < total_items`; and a page
beyond `total_pages` yields an empty item list (no error: the function
is total). -/
theorem C1_pagination (env : Env) (g : ContentGraph) (source path : String)
    (page page_size : Int) (sort : Option String) (lim : Option Int)
    (layout : Option JVal) (card : Option String) (pattern : Option String)
    (cur : String) :
    (resolve_collection env g source path page page_size sort lim layout card pattern
        cur).paging.total_pages
      = ((collectionCandidates env g source path sort lim pattern cur).length
          + normPageSize page_size - 1) / normPageSize page_size ∧
    (resolve_collection env g source path page page_size sort lim layout card pattern
        cur).items
      = (((collectionCandidates env g source path sort lim pattern cur).drop
            ((normPage page - 1) * normPageSize page_size)).take
          (normPageSize page_size)).map (fun q => item_payload g source q) ∧
    ((List.range (resolve_collection env g source path page page_size sort lim layout
          card pattern cur).paging.total_pages).map (fun (i : Nat) =>
        (resolve_collection env g source path ((i : Int) + 1) page_size sort lim layout
            card pattern cur).items)).flatten
      = (collectionCandidates env g source path sort lim pattern cur).map
          (fun q => item_payload g source q) ∧
    ((resolve_collection env g source path page page_size sort lim layout card pattern
          cur).paging.has_more = true
      ↔ (resolve_collection env g source path page page_size sort lim layout card pattern
          cur).paging.page
        < (resolve_collection env g source path page page_size sort lim layout card
            pattern cur).paging.total_pages) ∧
    ((resolve_collection env g source path page page_size sort lim layout card pattern
          cur).paging.has_more = true
      ↔ (resolve_collection env g source path page page_size sort lim layout card pattern
            cur).paging.page
          * (resolve_collection env g source path page page_size sort lim layout card
              pattern cur).paging.page_size
        < (resolve_collection env g source path page page_size sort lim layout card
            pattern cur).paging.total_items) ∧
    ((resolve_collection env g source path page page_size sort lim layout card pattern
          cur).paging.total_pages < normPage page →
      (resolve_collection env g source path page page_size sort lim layout card pattern
          cur).items = []) := by
  have hp := normPage_pos page
  have hs := normPageSize_pos page_size
  set s := normPageSize page_size with hsdef
  set p := normPage page with hpdef
  set cands := collectionCandidates env g source path sort lim pattern cur with hcands
  have hhm : (resolve_collection env g source path page page_size sort lim layout card
      pattern cur).paging.has_more = decide ((p - 1) * s + s < cands.length) := rfl
  refine ⟨rfl, rfl, ?_, ?_, ?_, ?_⟩
  · have hitems : ∀ i : Nat,
        (resolve_collection env g source path ((i : Int) + 1) page_size sort lim layout
            card pattern cur).items
          = ((cands.drop (i * s)).take s).map (fun q => item_payload g source q) := by
      intro i
      show (((cands.drop ((normPage ((i : Int) + 1) - 1) * s)).take s).map
          (fun q => item_payload g source q)) = _
      rw [normPage_natCast_succ]
      simp
    have hmapc : (List.range ((cands.length + s - 1) / s)).map (fun (i : Nat) =>
        (resolve_collection env g source path ((i : Int) + 1) page_size sort lim layout
            card pattern cur).items)
        = (List.range ((cands.length + s - 1) / s)).map (fun i =>
            ((cands.drop (i * s)).take s).map (fun q => item_payload g source q)) := by
      apply List.map_congr_left
      intro i _
      exact hitems i
    show ((List.range ((cands.length + s - 1) / s)).map (fun (i : Nat) =>
        (resolve_collection env g source path ((i : Int) + 1) page_size sort lim layout
            card pattern cur).items)).flatten = _
    rw [hmapc]
    have hjoin : ((List.range ((cands.length + s - 1) / s)).map (fun i =>
          ((cands.drop (i * s)).take s).map (fun q => item_payload g source q))).flatten
        = (((List.range ((cands.length + s - 1) / s)).map (fun i =>
            (cands.drop (i * s)).take s)).flatten).map (fun q => item_payload g source q) := by
      rw [List.map_flatten, List.map_map]
      rfl
    rw [hjoin]
    rw [concatPages_eq s _ cands (le_ceil_mul cands.length s hs)]
  · rw [hhm]
    show (decide ((p - 1) * s + s < cands.length) = true ↔ p < (cands.length + s - 1) / s)
    rw [decide_eq_true_iff]
    rw [start_add_size p s hp]
    exact lt_ceil_iff_mul_lt p s cands.length hp hs
  · rw [hhm]
    show (decide ((p - 1) * s + s < cands.length) = true ↔ p * s < cands.length)
    rw [decide_eq_true_iff]
    rw [start_add_size p s hp]
  · intro hbeyond
    have hb2 : (cands.length + s - 1) / s < p := hbeyond
    show (((cands.drop ((p - 1) * s)).take s).map (fun q => item_payload g source q)) = []
    have hceil := le_ceil_mul cands.length s hs
    have hmul : ((cands.length + s - 1) / s) * s ≤ (p - 1) * s :=
      Nat.mul_le_mul_right s (by omega)
    have hlen : cands.length ≤ (p - 1) * s := by omega
    rw [List.drop_eq_nil_of_le hlen]
    simp

/-! ### C6: name_asc / name_desc -/

theorem char_eq_of_toNat_eq {a b : Char} (h : a.toNat = b.toNat) : a = b := by
  have h2 : a.val = b.val := by
    have h3 : a.val.toNat = b.val.toNat := h
    exact UInt32.toNat.inj h3
  exact Char.ext h2

theorem lexLe_total (a b : List Char) : lexLe a b = true ∨ lexLe b a = true := by
  induction a generalizing b with
  | nil => exact Or.inl rfl
  | cons x xs ih =>
    cases b with
    | nil => exact Or.inr rfl
    | cons y ys =>
      rw [show lexLe (x :: xs) (y :: ys)
            = (if x.toNat < y.toNat then true
               else if x.toNat = y.toNat then lexLe xs ys else false) from rfl]
      rw [show lexLe (y :: ys) (x :: xs)
            = (if y.toNat < x.toNat then true
               else if y.toNat = x.toNat then lexLe ys xs else false) from rfl]
      rcases Nat.lt_trichotomy x.toNat y.toNat with h | h | h
      · left; rw [if_pos h]
      · rcases ih ys with h2 | h2
        · left; rw [if_neg (by omega), if_pos h, h2]
        · right; rw [if_neg (by omega), if_pos h.symm, h2]
      · right; rw [if_pos h]

theorem lexLe_trans : ∀ (a b c : List Char),
    lexLe a b = true → lexLe b c = true → lexLe a c = true := by
  intro a
  induction a with
  | nil => intro b c _ _; rfl
  | cons x xs ih =>
    intro b c hab hbc
    cases b with
    | nil => cases hab
    | cons y ys =>
      cases c with
      | nil => cases hbc
      | cons z zs =>
        rw [show lexLe (x :: xs) (y :: ys)
              = (if x.toNat < y.toNat then true
                 else if x.toNat = y.toNat then lexLe xs ys else false) from rfl] at hab
        rw [show lexLe (y :: ys) (z :: zs)
              = (if y.toNat < z.toNat then true
                 else if y.toNat = z.toNat then lexLe ys zs else false) from rfl] at hbc
        rw [show lexLe (x :: xs) (z :: zs)
              = (if x.toNat < z.toNat then true
                 else if x.toNat = z.toNat then lexLe xs zs else false) from rfl]
        by_cases h1 : x.toNat < y.toNat
        · by_cases h2 : y.toNat < z.toNat
          · rw [if_pos (by omega)]
          · by_cases h3 : y.toNat = z.toNat
            · rw [if_pos (by omega)]
            · rw [if_neg h2, if_neg h3] at hbc; cases hbc
        · by_cases h1e : x.toNat = y.toNat
          · rw [if_neg h1, if_pos h1e] at hab
            by_cases h2 : y.toNat < z.toNat
            · rw [if_pos (by omega)]
            · by_cases h3 : y.toNat = z.toNat
              · rw [if_neg h2, if_pos h3] at hbc
                rw [if_neg (by omega), if_pos (by omega)]
                exact ih ys zs hab hbc
              · rw [if_neg h2, if_neg h3] at hbc; cases hbc
          · rw [if_neg h1, if_neg h1e] at hab; cases hab

theorem lexLe_antisymm : ∀ (a b : List Char),
    lexLe a b = true → lexLe b a = true → a = b := by
  intro a
  induction a with
  | nil =>
    intro b hab hba
    cases b with
    | nil => rfl
    | cons y ys => cases hba
  | cons x xs ih =>
    intro b hab hba
    cases b with
    | nil => cases hab
    | cons y ys =>
      rw [show lexLe (x :: xs) (y :: ys)
            = (if x.toNat < y.toNat then true
               else if x.toNat = y.toNat then lexLe xs ys else false) from rfl] at hab
      rw [show lexLe (y :: ys) (x :: xs)
            = (if y.toNat < x.toNat then true
               else if y.toNat = x.toNat then lexLe ys xs else false) from rfl] at hba
      by_cases h1 : x.toNat < y.toNat
      · rw [if_neg (by omega), if_neg (by omega)] at hba
        cases hba
      · by_cases h2 : x.toNat = y.toNat
        · rw [if_neg h1, if_pos h2] at hab
          rw [if_neg (by omega), if_pos (by omega)] at hba
          rw [char_eq_of_toNat_eq h2, ih ys hab hba]
        · rw [if_neg h1, if_neg h2] at hab; cases hab

theorem lexLe_refl_aux (l : List Char) : lexLe l l = true := by
  induction l with
  | nil => rfl
  | cons a as_ ih =>
    rw [show lexLe (a :: as_) (a :: as_)
          = (if a.toNat < a.toNat then true
             else if a.toNat = a.toNat then lexLe as_ as_ else false) from rfl]
    rw [if_neg (by omega), if_pos rfl]
    exact ih

theorem insertS_perm {α : Type} (le : α → α → Bool) (a : α) :
    ∀ l : List α, (insertS le a l).Perm (a :: l) := by
  intro l
  induction l with
  | nil => exact List.Perm.refl _
  | cons b bs ih =>
    rw [insertS]
    by_cases h : le a b = true
    · rw [if_pos h]
    · rw [if_neg h]
      exact (List.Perm.cons b ih).trans (List.Perm.swap a b bs)

theorem pySorted_perm {α : Type} (le : α → α → Bool) :
    ∀ l : List α, (pySorted le l).Perm l := by
  intro l
  induction l with
  | nil => exact List.Perm.refl _
  | cons a t ih =>
    show (insertS le a (pySorted le t)).Perm (a :: t)
    exact (insertS_perm le a (pySorted le t)).trans (List.Perm.cons a ih)

theorem mem_insertS {α : Type} (le : α → α → Bool) (a x : α) (l : List α) :
    x ∈ insertS le a l ↔ x = a ∨ x ∈ l := by
  rw [(insertS_perm le a l).mem_iff]
  exact List.mem_cons

theorem insertS_pairwise {α : Type} (le : α → α → Bool)
    (htrans : ∀ x y z, le x y = true → le y z = true → le x z = true)
    (htotal : ∀ x y, le x y = true ∨ le y x = true) (a : α) :
    ∀ l : List α, l.Pairwise (fun x y => le x y = true) →
      (insertS le a l).Pairwise (fun x y => le x y = true) := by
  intro l
  induction l with
  | nil => intro _; exact List.pairwise_singleton _ a
  | cons b bs ih =>
    intro h
    rw [List.pairwise_cons] at h
    rw [insertS]
    by_cases hab : le a b = true
    · rw [if_pos hab]
      rw [List.pairwise_cons]
      constructor
      · intro x hx
        rcases List.mem_cons.mp hx with hx | hx
        · rw [hx]; exact hab
        · exact htrans a b x hab (h.1 x hx)
      · rw [List.pairwise_cons]
        exact h
    · rw [if_neg hab]
      rw [List.pairwise_cons]
      constructor
      · intro x hx
        rcases (mem_insertS le a x bs).mp hx with hx | hx
        · rw [hx]
          rcases htotal a b with h2 | h2
          · exact absurd h2 hab
          · exact h2
        · exact h.1 x hx
      · exact ih h.2

theorem pySorted_pairwise {α : Type} (le : α → α → Bool)
    (htrans : ∀ x y z, le x y = true → le y z = true → le x z = true)
    (htotal : ∀ x y, le x y = true ∨ le y x = true) :
    ∀ l : List α, (pySorted le l).Pairwise (fun x y => le x y = true) := by
  intro l
  induction l with
  | nil => exact List.Pairwise.nil
  | cons a t ih =>
    show (insertS le a (pySorted le t)).Pairwise _
    exact insertS_pairwise le htrans htotal a (pySorted le t) ih

/-- Two sorted permutations of each other are equal when the sort keys
are pairwise distinct. -/
theorem eq_of_perm_pairwise_nodup_keys {α : Type} (key : α → List Char) :
    ∀ (l1 l2 : List α), l1.Perm l2 →
      l1.Pairwise (fun x y => lexLe (key x) (key y) = true) →
      l2.Pairwise (fun x y => lexLe (key x) (key y) = true) →
      (l1.map key).Nodup → l1 = l2 := by
  intro l1
  induction l1 with
  | nil =>
    intro l2 hperm _ _ _
    exact hperm.nil_eq
  | cons a t1 ih =>
    intro l2 hperm hp1 hp2 hnodup
    cases l2 with
    | nil => exact absurd hperm.symm.nil_eq (by simp)
    | cons b t2 =>
      rw [List.pairwise_cons] at hp1 hp2
      rw [List.map_cons, List.nodup_cons] at hnodup
      have hab : a = b := by
        have hain : a ∈ b :: t2 := hperm.mem_iff.mp (List.mem_cons_self a t1)
        rcases List.mem_cons.mp hain with h | h
        · exact h
        · have hba : lexLe (key b) (key a) = true := hp2.1 a h
          have hbin : b ∈ a :: t1 := hperm.symm.mem_iff.mp (List.mem_cons_self b t2)
          rcases List.mem_cons.mp hbin with h2 | h2
          · exact h2.symm
          · have hab2 : lexLe (key a) (key b) = true := hp1.1 b h2
            have hkey : key a = key b := lexLe_antisymm _ _ hab2 hba
            exact absurd (hkey ▸ List.mem_map_of_mem key h2) hnodup.1
      subst hab
      have htail : t1.Perm t2 := (List.perm_cons a).mp hperm
      rw [ih t2 htail hp1.2 hp2.2 hnodup.2]

theorem apply_sort_name_asc (env : Env) (g : ContentGraph) (paths : List String)
    (pp : Option String) :
    apply_sort env g paths (some "name_asc") pp
      = pySorted (fun a b => lexLe (titleKey g a) (titleKey g b)) paths := by
  unfold apply_sort
  rw [if_neg (by decide), if_pos (by decide)]

theorem apply_sort_name_desc (env : Env) (g : ContentGraph) (paths : List String)
    (pp : Option String) :
    apply_sort env g paths (some "name_desc") pp
      = pySorted (fun a b => lexLe (titleKey g b) (titleKey g a)) paths := by
  unfold apply_sort
  rw [if_neg (by decide), if_neg (by decide), if_pos (by decide)]

theorem insertS_sublist {α : Type} (le : α → α → Bool) (x : α) :
    ∀ l : List α, l.Sublist (insertS le x l) := by
  intro l
  induction l with
  | nil => exact List.nil_sublist _
  | cons y ys ih =>
    rw [insertS]
    by_cases h : le x y = true
    · rw [if_pos h]
      exact List.Sublist.cons x (List.Sublist.refl _)
    · rw [if_neg h]
      exact List.Sublist.cons₂ y ih

theorem insertS_pair {α : Type} (le : α → α → Bool) (x b : α) :
    ∀ l : List α, b ∈ l → le x b = true → [x, b].Sublist (insertS le x l) := by
  intro l
  induction l with
  | nil => intro hb; cases hb
  | cons y ys ih =>
    intro hb hxb
    rw [insertS]
    by_cases h : le x y = true
    · rw [if_pos h]
      exact List.Sublist.cons₂ x (List.singleton_sublist.mpr hb)
    · rw [if_neg h]
      rcases List.mem_cons.mp hb with hby | hby
      · subst hby
        exact absurd hxb h
      · exact List.Sublist.cons y (ih hby hxb)

theorem pySorted_pair_stable {α : Type} (le : α → α → Bool) (a b : α) :
    ∀ l : List α, [a, b].Sublist l → le a b = true →
      [a, b].Sublist (pySorted le l) := by
  intro l
  induction l with
  | nil => intro hsub _; cases hsub
  | cons c t ih =>
    intro hsub hle
    show [a, b].Sublist (insertS le c (pySorted le t))
    cases hsub with
    | cons _ h' => exact (ih h' hle).trans (insertS_sublist le c (pySorted le t))
    | cons₂ _ h' =>
      have hbmem : b ∈ pySorted le t :=
        (pySorted_perm le t).mem_iff.mpr (List.singleton_sublist.mp h')
      exact insertS_pair le a b (pySorted le t) hbmem hle

/-- C6 (amended): `name_asc` and `name_desc` both sort case-insensitively
by display title (preview title, else node title, else the raw path),
both are stable with respect to ties (a tied pair keeps its input order
in BOTH outputs), and consequently the two outputs are exact reverses
of each other whenever no two candidates share a lowercased title;
with a tie the exact-reverse relationship fails (see the
counterexample). -/
theorem C6_name_sorts (env : Env) (g : ContentGraph) (paths : List String)
    (pp : Option String) :
    ((paths.map (fun q => titleKey g q)).Nodup →
      apply_sort env g paths (some "name_desc") pp
        = (apply_sort env g paths (some "name_asc") pp).reverse) ∧
    (∀ a b, [a, b].Sublist paths → titleKey g a = titleKey g b →
      [a, b].Sublist (apply_sort env g paths (some "name_asc") pp) ∧
      [a, b].Sublist (apply_sort env g paths (some "name_desc") pp)) := by
  have htransA : ∀ x y z : String, lexLe (titleKey g x) (titleKey g y) = true →
      lexLe (titleKey g y) (titleKey g z) = true →
      lexLe (titleKey g x) (titleKey g z) = true :=
    fun x y z h1 h2 => lexLe_trans _ _ _ h1 h2
  have htotalA : ∀ x y : String, lexLe (titleKey g x) (titleKey g y) = true ∨
      lexLe (titleKey g y) (titleKey g x) = true :=
    fun x y => lexLe_total _ _
  constructor
  · intro hnodup
    rw [apply_sort_name_asc, apply_sort_name_desc]
    set leA := fun a b : String => lexLe (titleKey g a) (titleKey g b) with hleA
    set leD := fun a b : String => lexLe (titleKey g b) (titleKey g a) with hleD
    have hpermA : (pySorted leA paths).Perm paths := pySorted_perm leA paths
    have hpermD : (pySorted leD paths).Perm paths := pySorted_perm leD paths
    have hpA : (pySorted leA paths).Pairwise (fun x y => leA x y = true) :=
      pySorted_pairwise leA htransA htotalA paths
    have hpD : (pySorted leD paths).Pairwise (fun x y => leD x y = true) :=
      pySorted_pairwise leD
        (fun x y z h1 h2 => lexLe_trans _ _ _ h2 h1)
        (fun x y => (lexLe_total _ _).symm) paths
    have hpDrev : ((pySorted leD paths).reverse).Pairwise (fun x y => leA x y = true) := by
      rw [List.pairwise_reverse]
      exact hpD
    have hpermDrev : ((pySorted leD paths).reverse).Perm (pySorted leA paths) :=
      ((List.reverse_perm _).trans hpermD).trans hpermA.symm
    have hnodupA : ((pySorted leA paths).map (fun q => titleKey g q)).Nodup :=
      ((hpermA.map (fun q => titleKey g q)).nodup_iff).mpr hnodup
    have heq : pySorted leA paths = (pySorted leD paths).reverse :=
      eq_of_perm_pairwise_nodup_keys (fun q => titleKey g q)
        (pySorted leA paths) ((pySorted leD paths).reverse)
        hpermDrev.symm hpA hpDrev hnodupA
    rw [heq, List.reverse_reverse]
  · intro a b hsub hkey
    rw [apply_sort_name_asc, apply_sort_name_desc]
    constructor
    · apply pySorted_pair_stable _ a b paths hsub
      rw [hkey]
      exact lexLe_refl_aux (titleKey g b)
    · apply pySorted_pair_stable _ a b paths hsub
      rw [hkey]
      exact lexLe_refl_aux (titleKey g b)

/-- A fixed trivial environment: identity shuffle, empty filesystem. -/
def env0 : Env := { shuffle := fun l => l, listMedia := fun _ _ _ => [] }

/-- Two nodes whose preview titles tie case-insensitively. -/
def tieGraph : ContentGraph :=
  buildGraph "server" none
    [plainNode "x/a" (some "x") none (some "Same") [],
     plainNode "x/b" (some "x") none (some "Same") []]

/-- Two nodes with distinct titles. -/
def distinctGraph : ContentGraph :=
  buildGraph "server" none
    [plainNode "y/a" (some "y") none (some "Alpha") [],
     plainNode "y/b" (some "y") none (some "Beta") []]

/-- Witness for C6: on a tie-free candidate list the theorem applies,
and the two name sorts are exact reverses. -/
theorem C6_name_sorts_witness :
    apply_sort env0 distinctGraph ["y/a", "y/b"] (some "name_desc") none
      = (apply_sort env0 distinctGraph ["y/a", "y/b"] (some "name_asc") none).reverse :=
  (C6_name_sorts env0 distinctGraph ["y/a", "y/b"] none).1 (by decide)

/-- C6 counterexample: with two candidates of equal (case-insensitive)
title, both sorts are stable and keep the input order, so `name_desc`
is NOT the reverse of `name_asc`. -/
theorem C6_counterexample :
    apply_sort env0 tieGraph ["x/a", "x/b"] (some "name_desc") none = ["x/a", "x/b"] ∧
    (apply_sort env0 tieGraph ["x/a", "x/b"] (some "name_asc") none).reverse
      = ["x/b", "x/a"] ∧
    ¬ apply_sort env0 tieGraph ["x/a", "x/b"] (some "name_desc") none
        = (apply_sort env0 tieGraph ["x/a", "x/b"] (some "name_asc") none).reverse := by
  refine ⟨by decide, by decide, by decide⟩

/-! ### C5: nav tree building is cycle-safe -/

/-- The registered paths of a graph. -/
def nodeKeys (g : ContentGraph) : List String := g.nodes.map (fun kv => kv.1)

/-- The `meta.path`s of the registered node objects — exactly the
strings the nav builder's visited set can ever receive. -/
def nodePaths (g : ContentGraph) : List String :=
  g.nodes.map (fun kv => kv.2.meta.path)

/-- How many registered node paths are not yet in the visited set. -/
def unvisitedCount (g : ContentGraph) (visited : List String) : Nat :=
  ((nodePaths g).filter (fun q => !(visited.contains q))).length

theorem contains_iff_mem_str (l : List String) (a : String) :
    l.contains a = true ↔ a ∈ l := by
  induction l with
  | nil => simp
  | cons c rest ih =>
    simp only [List.contains_cons, Bool.or_eq_true, beq_iff_eq, List.mem_cons, ih]

theorem dictGet_isSome_mem_keys {β : Type} (d : List (String × β)) (k : String) (v : β)
    (h : dictGet d k = some v) : k ∈ d.map (fun kv => kv.1) :=
  List.mem_map_of_mem (fun kv => kv.1) (dictGet_mem d k v h)

theorem length_filter_mono {α : Type} (l : List α) (p q : α → Bool)
    (h : ∀ x ∈ l, p x = true → q x = true) :
    (l.filter p).length ≤ (l.filter q).length := by
  induction l with
  | nil => simp
  | cons b rest ih =>
    have ih' := ih (fun x hx => h x (List.mem_cons_of_mem _ hx))
    rw [List.filter_cons, List.filter_cons]
    by_cases hp : p b = true
    · rw [if_pos hp, if_pos (h b (List.mem_cons_self _ _) hp)]
      simpa using ih'
    · rw [if_neg hp]
      by_cases hq : q b = true
      · rw [if_pos hq]
        simp only [List.length_cons]
        omega
      · rw [if_neg hq]
        exact ih'

theorem length_filter_lt {α : Type} (l : List α) (p q : α → Bool)
    (h : ∀ x ∈ l, p x = true → q x = true) (a : α) (ha : a ∈ l)
    (hpa : p a = false) (hqa : q a = true) :
    (l.filter p).length < (l.filter q).length := by
  induction l with
  | nil => cases ha
  | cons b rest ih =>
    have hmono := length_filter_mono rest p q (fun x hx => h x (List.mem_cons_of_mem _ hx))
    rw [List.filter_cons, List.filter_cons]
    by_cases hp : p b = true
    · have hq : q b = true := h b (List.mem_cons_self _ _) hp
      rw [if_pos hp, if_pos hq]
      simp only [List.length_cons]
      have hba : b ≠ a := by
        intro hcon
        rw [hcon, hpa] at hp
        cases hp
      have harest : a ∈ rest := by
        rcases List.mem_cons.mp ha with hh | hh
        · exact absurd hh.symm hba
        · exact hh
      have := ih (fun x hx => h x (List.mem_cons_of_mem _ hx)) harest
      omega
    · rw [if_neg hp]
      by_cases hq : q b = true
      · rw [if_pos hq]
        simp only [List.length_cons]
        omega
      · rw [if_neg hq]
        have hba : b ≠ a := by
          intro hcon
          rw [hcon, hqa] at hq
          exact hq rfl
        have harest : a ∈ rest := by
          rcases List.mem_cons.mp ha with hh | hh
          · exact absurd hh.symm hba
          · exact hh
        exact ih (fun x hx => h x (List.mem_cons_of_mem _ hx)) harest

theorem unvisitedCount_append_le (g : ContentGraph) (visited more : List String) :
    unvisitedCount g (visited ++ more) ≤ unvisitedCount g visited := by
  apply length_filter_mono
  intro x _ hx
  simp only [Bool.not_eq_true', Bool.not_eq_false] at hx ⊢
  rw [Bool.eq_false_iff] at hx ⊢
  intro hcon
  exact hx ((contains_iff_mem_str _ _).mpr
    (List.mem_append_left _ ((contains_iff_mem_str _ _).mp hcon)))

theorem unvisitedCount_append_lt (g : ContentGraph) (visited : List String) (q : String)
    (hq : q ∈ nodePaths g) (hnv : visited.contains q = false) :
    unvisitedCount g (visited ++ [q]) < unvisitedCount g visited := by
  refine length_filter_lt _ _ _ ?_ q hq ?_ ?_
  · intro x _ hx
    simp only [Bool.not_eq_true', Bool.not_eq_false] at hx ⊢
    rw [Bool.eq_false_iff] at hx ⊢
    intro hcon
    exact hx ((contains_iff_mem_str _ _).mpr
      (List.mem_append_left _ ((contains_iff_mem_str _ _).mp hcon)))
  · have hc : (visited ++ [q]).contains q = true :=
      (contains_iff_mem_str _ _).mpr
        (List.mem_append_right _ (List.mem_singleton.mpr rfl))
    rw [hc]
    rfl
  · rw [hnv]
    rfl

theorem navChildrenGo_spec (g : ContentGraph) (fuel : Nat)
    (IH : ∀ (node : ContentNode) (visited : List String),
      node.meta.path ∈ nodePaths g → unvisitedCount g visited < fuel →
      ∃ items newps,
        buildNavTreeAux g fuel node visited = some (items, visited ++ newps) ∧
        newps.Nodup ∧ (∀ x ∈ newps, x ∉ visited) ∧ (∀ x ∈ newps, x ∈ nodePaths g)) :
    ∀ (subs : List (String × Option String)) (visited : List String),
      unvisitedCount g visited < fuel →
      ∃ items newps,
        navChildrenGo g (buildNavTreeAux g fuel) subs visited
          = some (items, visited ++ newps) ∧
        newps.Nodup ∧ (∀ x ∈ newps, x ∉ visited) ∧ (∀ x ∈ newps, x ∈ nodePaths g) := by
  intro subs
  induction subs with
  | nil =>
    intro visited _
    exact ⟨[], [], by rw [navChildrenGo, List.append_nil], List.nodup_nil,
      fun x hx => absurd hx (List.not_mem_nil x), fun x hx => absurd hx (List.not_mem_nil x)⟩
  | cons sub rest ih =>
    intro visited hcount
    obtain ⟨ref, label⟩ := sub
    rw [navChildrenGo]
    by_cases href : (ref == "") = true
    · rw [if_pos href]
      exact ih visited hcount
    · rw [if_neg href]
      cases htgt : get_node g ref with
      | none =>
        dsimp only
        exact ih visited hcount
      | some target =>
        dsimp only
        have hmemt : target.meta.path ∈ nodePaths g := by
          unfold get_node at htgt
          exact List.mem_map_of_mem (fun kv => kv.2.meta.path)
            (dictGet_mem g.nodes ref target htgt)
        rcases IH target visited hmemt hcount with ⟨kids, new1, heq1, hnd1, hfr1, hk1⟩
        rw [heq1]
        dsimp only
        have hcount2 : unvisitedCount g (visited ++ new1) < fuel :=
          Nat.lt_of_le_of_lt (unvisitedCount_append_le g visited new1) hcount
        rcases ih (visited ++ new1) hcount2 with ⟨items2, new2, heq2, hnd2, hfr2, hk2⟩
        rw [heq2]
        dsimp only
        refine ⟨{ label := firstTruthy
                    [label, target.meta.display_name, target.title, target.meta.slug]
                    target.meta.path
                  href := href_for_path g target.meta.path
                  children := kids } :: items2, new1 ++ new2, ?_, ?_, ?_, ?_⟩
        · rw [List.append_assoc]
        · rw [List.nodup_append]
          refine ⟨hnd1, hnd2, ?_⟩
          intro x hx1 hx2
          exact hfr2 x hx2 (List.mem_append_right _ hx1)
        · intro x hx
          rcases List.mem_append.mp hx with hx | hx
          · exact hfr1 x hx
          · intro hcon
            exact hfr2 x hx (List.mem_append_left _ hcon)
        · intro x hx
          rcases List.mem_append.mp hx with hx | hx
          · exact hk1 x hx
          · exact hk2 x hx

theorem buildNavTreeAux_spec (g : ContentGraph) :
    ∀ (fuel : Nat) (node : ContentNode) (visited : List String),
      node.meta.path ∈ nodePaths g → unvisitedCount g visited < fuel →
      ∃ items newps,
        buildNavTreeAux g fuel node visited = some (items, visited ++ newps) ∧
        newps.Nodup ∧ (∀ x ∈ newps, x ∉ visited) ∧ (∀ x ∈ newps, x ∈ nodePaths g) := by
  intro fuel
  induction fuel with
  | zero =>
    intro node visited _ h
    exact absurd h (Nat.not_lt_zero _)
  | succ f ih =>
    intro node visited hmem hcount
    rw [buildNavTreeAux]
    by_cases hv : visited.contains node.meta.path = true
    · rw [if_pos hv]
      exact ⟨[], [], by rw [List.append_nil], List.nodup_nil,
        fun x hx => absurd hx (List.not_mem_nil x),
        fun x hx => absurd hx (List.not_mem_nil x)⟩
    · rw [if_neg hv]
      have hvf : visited.contains node.meta.path = false := (Bool.not_eq_true _) ▸ hv
      have hlt := unvisitedCount_append_lt g visited node.meta.path hmem hvf
      have hdec : unvisitedCount g (visited ++ [node.meta.path]) < f := by omega
      rcases navChildrenGo_spec g f (fun n' v' h1 h2 => ih n' v' h1 h2)
        (navSubpages node.content) (visited ++ [node.meta.path]) hdec with
        ⟨items, newps, heq, hnd, hfr, hk⟩
      rw [heq]
      refine ⟨items, node.meta.path :: newps, ?_, ?_, ?_, ?_⟩
      · rw [List.append_assoc, List.singleton_append]
      · rw [List.nodup_cons]
        refine ⟨?_, hnd⟩
        intro hcon
        exact hfr node.meta.path hcon
          (List.mem_append_right _ (List.mem_singleton.mpr rfl))
      · intro x hx
        rcases List.mem_cons.mp hx with hx | hx
        · subst hx
          intro hcon
          rw [← contains_iff_mem_str] at hcon
          rw [hvf] at hcon
          cases hcon
        · intro hcon
          exact hfr x hx (List.mem_append_left _ hcon)
      · intro x hx
        rcases List.mem_cons.mp hx with hx | hx
        · subst hx
          exact hmem
        · exact hk x hx

/-- Two nodes whose nav-flagged subpage blocks reference each other:
`a` → `b` → `a`. -/
def cycleNodeA : ContentNode := plainNode "a" none none none [Block.subpage "b" none true]

def cycleNodeB : ContentNode := plainNode "b" none none none [Block.subpage "a" none true]

def cycleGraph : ContentGraph := buildGraph "server" none [cycleNodeA, cycleNodeB]

/-- C5: building a nav tree terminates whenever the fuel exceeds the
number of unvisited registered node paths — in particular on reference
cycles — and within one expansion no path is ever expanded twice: the
visited set only extends by a duplicate-free list of fresh registered
paths, and a revisited path contributes an empty child list.
Concretely, on the cycle `a → b → a` the expansion of the nav entry for
`a` is the finite tree `a / b / a` with no further re-expansion of `a`
under its own subtree. -/
theorem C5_nav_cycle_safety (g : ContentGraph) (node : ContentNode)
    (visited : List String) (fuel : Nat)
    (hmem : node.meta.path ∈ nodePaths g)
    (hfuel : unvisitedCount g visited < fuel) :
    (buildNavTreeAux g fuel node visited).isSome = true ∧
    (∀ items vis', buildNavTreeAux g fuel node visited = some (items, vis') →
      vis'.take visited.length = visited ∧
      (vis'.drop visited.length).Nodup ∧
      (∀ x ∈ vis'.drop visited.length, x ∉ visited)) ∧
    nav_item_from_entry cycleGraph 3 (some "a") none (some "from_subpages")
      = some (some
          { label := "a", href := "/a"
            children := [{ label := "b", href := "/b"
                           children := [{ label := "a", href := "/a", children := [] }] }] }) := by
  rcases buildNavTreeAux_spec g fuel node visited hmem hfuel with
    ⟨items, newps, heq, hnd, hfr, _⟩
  refine ⟨by rw [heq]; rfl, ?_, by rfl⟩
  intro items2 vis' heq2
  rw [heq] at heq2
  have hp : (items, visited ++ newps) = (items2, vis') := Option.some.inj heq2
  have hv : vis' = visited ++ newps := (congrArg Prod.snd hp).symm
  subst hv
  refine ⟨List.take_left _ _, ?_, ?_⟩
  · rw [List.drop_left]
    exact hnd
  · rw [List.drop_left]
    exact hfr

/-! ### C2: page payload assembly -/

/-- Does a serialized block carry collection items and paging metadata,
i.e. has it been expanded by the collection resolver? -/
def isHydratedB : BlockOut → Bool
  | BlockOut.collectionHydrated _ _ _ _ _ => true
  | _ => false

/-- The hydration fingerprint of a page payload: one flag per content
block. -/
def pageProbe (p : PagePayload) : List Bool := p.content.map isHydratedB

/-- A graph with a single page `p` whose content is one collection
block. -/
def collGraph : ContentGraph :=
  buildGraph "server" none
    [plainNode "p" none none none [Block.collection "folder" (some "art")]]

/-- C2 (amended): for every registered path, `to_page_payload` returns
the node's own fields with the resolved effective theme attached and the
content blocks serialized unchanged — section blocks keep their raw
children and collection blocks stay unexpanded, with no hydration walk;
for an unregistered path it returns absent. -/
theorem C2_page_payload (g : ContentGraph) (fuel : Nat) (path : String) :
    (∀ node, get_node g path = some node →
      ∀ eff, resolveThemeAux g fuel path = some eff →
        to_page_payload g fuel path = some (some
          { path := node.meta.path
            meta_layout := node.meta.layout
            meta_slug := node.meta.slug
            meta_display_name := node.meta.display_name
            meta_theme := node.meta.theme
            meta_effects := node.meta.effects
            meta_extra := node.meta.extra
            meta_effective_theme := eff
            title := node.title
            tagline := node.tagline
            preview := node.preview
            content := serializeBlocks node.content })) ∧
    (get_node g path = none → to_page_payload g fuel path = some none) := by
  constructor
  · intro node hn eff he
    unfold to_page_payload
    rw [hn]
    dsimp only
    rw [he]
  · intro hn
    unfold to_page_payload
    rw [hn]

/-- Witness for C2: the amended theorem applied to `collGraph` at the
registered path `p` (content stays a raw collection block) and at the
unregistered path `q`. -/
theorem C2_page_payload_witness :
    to_page_payload collGraph 3 "p" = some (some
      { path := "p", meta_layout := "page", meta_slug := none
        meta_display_name := none, meta_theme := none, meta_effects := []
        meta_extra := JVal.objNil, meta_effective_theme := none
        title := none, tagline := none, preview := none
        content := [BlockOut.collectionRaw "folder" (some "art")] }) ∧
    to_page_payload collGraph 3 "q" = some none := by
  constructor
  · exact (C2_page_payload collGraph 3 "p").1 _ rfl none rfl
  · exact (C2_page_payload collGraph 3 "q").2 rfl

/-- C2 counterexample: on `collGraph`'s page `p`, `to_page_payload`
leaves the collection block raw (probe `[false]`) while the spec's
hydrating assembler expands it into items plus paging (probe `[true]`),
so the two payloads differ — `to_page_payload` does not hydrate. -/
theorem C2_counterexample :
    Option.map (Option.map pageProbe) (to_page_payload collGraph 3 "p")
      = some (some [false]) ∧
    Option.map (Option.map pageProbe) (to_page_payload_hydrated env0 collGraph 3 "p")
      = some (some [true]) ∧
    to_page_payload collGraph 3 "p" ≠ to_page_payload_hydrated env0 collGraph 3 "p" := by
  refine ⟨by decide, by decide, ?_⟩
  intro hcon
  exact absurd (congrArg (Option.map (Option.map pageProbe)) hcon) (by decide)

/-- Witness for C1: the theorem applied to `collGraph` at the childless
folder path `art` with page 5 and page size 2 — page 5 lies beyond
`total_pages = 0`, so the item slice is empty with no error. -/
theorem C1_pagination_witness :
    (resolve_collection env0 collGraph "folder" "art" 5 2 none none none none
        none "p").paging.total_pages < normPage 5 ∧
    (resolve_collection env0 collGraph "folder" "art" 5 2 none none none none
        none "p").items = [] := by
  refine ⟨by decide, ?_⟩
  exact (C1_pagination env0 collGraph "folder" "art" 5 2 none none none none
    none "p").2.2.2.2.2 (by decide)

/-- Witness for C5: the theorem applied to the concrete cycle graph
`a → b → a` with an empty visited set and fuel 3. -/
theorem C5_nav_cycle_safety_witness :
    (buildNavTreeAux cycleGraph 3 cycleNodeA []).isSome = true ∧
    nav_item_from_entry cycleGraph 3 (some "a") none (some "from_subpages")
      = some (some
          { label := "a", href := "/a"
            children := [{ label := "b", href := "/b"
                           children := [{ label := "a", href := "/a", children := [] }] }] }) := by
  have h := C5_nav_cycle_safety cycleGraph cycleNodeA [] 3 (by decide) (by decide)
  exact ⟨h.1, h.2.2⟩

end AwakeFM
